import Mathlib

set_option autoImplicit false

/-!
Verification of the `acmi-compressor` stream rewriter.

The program (`src/main.rs`) rewrites an ACMI trace in two passes: pass 1
reads the header reference latitude/longitude and scans all updates for the
minimum observed latitude/longitude; pass 2 re-anchors coordinates against
`floor(reference + minimum)` and suppresses per-entity properties that did
not change.

`f64` values are modelled exactly: a value is either an exact rational or
NaN.  NaN is kept as a separate constructor because the source's
comparisons (`FloatOrd`, `==`, `>`) treat it specially.
-/

/-- Rational addition, written so that the kernel can evaluate it on
concrete inputs (`Rat.add` in the library is irreducible); proved equal to
`+` in `qadd_eq`. -/
def qadd (a b : ℚ) : ℚ := mkRat (a.num * (b.den : ℤ) + b.num * (a.den : ℤ)) (a.den * b.den)

/-- Rational subtraction, kernel-evaluable; proved equal to `-` in
`qsub_eq`. -/
def qsub (a b : ℚ) : ℚ := mkRat (a.num * (b.den : ℤ) - b.num * (a.den : ℤ)) (a.den * b.den)

/-- Rational floor, kernel-evaluable; proved equal to `⌊·⌋` in
`qfloor_eq`. -/
def qfloor (a : ℚ) : ℤ := a.num / (a.den : ℤ)

theorem qadd_eq (a b : ℚ) : qadd a b = a + b := (Rat.add_def' a b).symm

theorem qsub_eq (a b : ℚ) : qsub a b = a - b := (Rat.sub_def' a b).symm

theorem qfloor_eq (a : ℚ) : qfloor a = ⌊a⌋ := Rat.floor_def.symm

/-- Model of an `f64` value: an exact rational, or NaN. -/
inductive F where
  | nan : F
  | val : ℚ → F
  deriving DecidableEq

/-- `f64` addition; NaN propagates. -/
def F.add : F → F → F
  | .val a, .val b => .val (qadd a b)
  | _, _ => .nan

/-- `f64` subtraction; NaN propagates. -/
def F.sub : F → F → F
  | .val a, .val b => .val (qsub a b)
  | _, _ => .nan

/-- `f64::floor`; NaN propagates. -/
def F.floor : F → F
  | .val a => .val ((qfloor a : ℤ) : ℚ)
  | .nan => .nan

/-- Rust `==` on `f64`: NaN is equal to nothing, including itself. -/
def F.beq : F → F → Bool
  | .val a, .val b => a == b
  | _, _ => false

/-- Rust `x > 0.0`: false for NaN. -/
def F.gt0 : F → Bool
  | .val a => decide (0 < a)
  | .nan => false

/-- The `FloatOrd` total order on `f64` values: NaN sorts as greatest. -/
def F.fle : F → F → Bool
  | _, .nan => true
  | .nan, .val _ => false
  | .val a, .val b => decide (a ≤ b)

/-- `std::cmp::min` under the `FloatOrd` order. -/
def fmin (a b : F) : F := if a.fle b then a else b

/-- Is the value an actual number (not NaN)? -/
def F.isNum : F → Bool
  | .nan => false
  | .val _ => true

/-- Modelled from the spec: `Coords` from the external `tacview` library is a
record of optional `f64` fields.  `latitude` and `longitude` are the fields
this program inspects; `altitude` stands in for the remaining
position/attitude components, which the program treats uniformly. -/
structure Coords where
  latitude : Option F
  longitude : Option F
  altitude : Option F
  deriving DecidableEq

/-- Rust `==` on `Option<f64>`. -/
def optEqR : Option F → Option F → Bool
  | none, none => true
  | some a, some b => F.beq a b
  | _, _ => false

/-- Modelled from the spec: one field of `Coords::delta` from the external
`tacview` library; the result is present iff the field is present in `curr`
and differs (Rust `!=`) from the corresponding field of `prev`, and then it
carries `curr`'s value. -/
def deltaField (p c : Option F) : Option F :=
  match c with
  | none => none
  | some cv => if optEqR p (some cv) then none else some cv

/-- Modelled from the spec: `Coords::delta` from the external `tacview`
library, applied fieldwise. -/
def Coords.delta (prev curr : Coords) : Coords :=
  { latitude := deltaField prev.latitude curr.latitude
    longitude := deltaField prev.longitude curr.longitude
    altitude := deltaField prev.altitude curr.altitude }

/-- `Coords::default()`: every field absent. -/
def Coords.dfl : Coords := ⟨none, none, none⟩

/-- Rust `==` on `Coords` (derived `PartialEq`, so NaN fields compare
unequal). -/
def coordsEqR (a b : Coords) : Bool :=
  optEqR a.latitude b.latitude && optEqR a.longitude b.longitude &&
    optEqR a.altitude b.altitude

/-- Modelled from the spec: `Property` from the external `tacview` library is
a tagged variant; `T` carries `Coords`, the other variants carry scalar or
string attributes and are represented here by an opaque variant tag and a
string value. -/
inductive Property where
  | T : Coords → Property
  | other : Nat → String → Property
  deriving DecidableEq

/-- `std::mem::discriminant`: the identity of a property's variant. -/
def tagOf : Property → Nat
  | .T _ => 0
  | .other t _ => t + 1

/-- Does this property carry coordinates (`matches!(p, Property::T(_))`)? -/
def Property.isT : Property → Bool
  | .T _ => true
  | _ => false

/-- Rust `==` on `Property` (coordinate fields compare with `f64` equality). -/
def propEqR : Property → Property → Bool
  | .T a, .T b => coordsEqR a b
  | .other t1 s1, .other t2 s2 => t1 == t2 && s1 == s2
  | _, _ => false

/-- Modelled from the spec: global properties from the external `tacview`
library; `ReferenceLatitude` and `ReferenceLongitude` carry `f64` values, all
other variants are opaque and passed through. -/
inductive GlobalProperty where
  | ReferenceLatitude : F → GlobalProperty
  | ReferenceLongitude : F → GlobalProperty
  | otherGlobal : Nat → String → GlobalProperty
  deriving DecidableEq

/-- Modelled from the spec: an `Update` record (entity id plus properties). -/
structure Update where
  id : Nat
  props : List Property
  deriving DecidableEq

/-- Modelled from the spec: the `Record` taxonomy of the external `tacview`
library. -/
inductive Record where
  | GlobalProperty : GlobalProperty → Record
  | Event : String → Record
  | Frame : F → Record
  | Update : Update → Record
  | Remove : Nat → Record
  deriving DecidableEq

/-- A reference point (`struct LL` in `main.rs`). -/
structure LL where
  lat : F
  lon : F
  deriving DecidableEq

/-- `LL::default()`. -/
def LL.dfl : LL := ⟨F.val 0, F.val 0⟩

/-- Pass-1 header phase (`parse_original_ll` in `main.rs`): consume records
while they are `GlobalProperty`, recording the reference latitude and
longitude; the first non-global record stops the loop and has been consumed
from the iterator.  Returns the reference and the remaining records. -/
def parse_original_ll : List Record → LL → LL × List Record
  | [], ll => (ll, [])
  | .GlobalProperty gp :: rest, ll =>
    match gp with
    | .ReferenceLatitude lat => parse_original_ll rest { ll with lat := lat }
    | .ReferenceLongitude lon => parse_original_ll rest { ll with lon := lon }
    | _ => parse_original_ll rest ll
  | _ :: rest, ll => (ll, rest)

/-- The body of the `find_min_ll` loop in `main.rs`, for one record: fold the
first `T` property's present latitude/longitude into the running minima. -/
def minStep (acc : Option F × Option F) (r : Record) : Option F × Option F :=
  match r with
  | .Update u =>
    match u.props.find? Property.isT with
    | some (.T coords) =>
      let a1 := match coords.latitude with
        | some lat => some (match acc.1 with | none => lat | some prev => fmin prev lat)
        | none => acc.1
      let a2 := match coords.longitude with
        | some lon => some (match acc.2 with | none => lon | some prev => fmin prev lon)
        | none => acc.2
      (a1, a2)
    | _ => acc
  | _ => acc

/-- Pass-1 scan phase (`find_min_ll` in `main.rs`): minimum observed
latitude/longitude over all update records, each axis defaulting to 0 when
never observed. -/
def find_min_ll (records : List Record) : LL :=
  let acc := records.foldl minStep (none, none)
  { lat := acc.1.getD (F.val 0), lon := acc.2.getD (F.val 0) }

/-- `offset_coords` in `main.rs`, without its assertions: shift the present
latitude/longitude fields by (old reference − new reference). -/
def offset_coords (old_ref new_ref : LL) (c : Coords) : Coords :=
  { c with
    latitude := c.latitude.map fun lat => (lat.add old_ref.lat).sub new_ref.lat
    longitude := c.longitude.map fun lon => (lon.add old_ref.lon).sub new_ref.lon }

/-- The `assert!(.. > 0.0)` checks of `offset_coords` in `main.rs`. -/
def offsetAssertsOk (old_ref new_ref : LL) (c : Coords) : Bool :=
  (match c.latitude with
   | some lat => ((lat.add old_ref.lat).sub new_ref.lat).gt0
   | none => true) &&
  (match c.longitude with
   | some lon => ((lon.add old_ref.lon).sub new_ref.lon).gt0
   | none => true)

/-- An association list stands in for the source's hash maps (which it only
uses for keyed lookup, insert, remove and extend). -/
def alInsert {α : Type} : List (Nat × α) → Nat → α → List (Nat × α)
  | [], k, v => [(k, v)]
  | (k', v') :: rest, k, v =>
    if k' = k then (k, v) :: rest else (k', v') :: alInsert rest k v

/-- Keyed lookup in an association list. -/
def alLookup {α : Type} : List (Nat × α) → Nat → Option α
  | [], _ => none
  | (k', v') :: rest, k => if k' = k then some v' else alLookup rest k

/-- `HashMap::remove`, forgetting the returned value. -/
def alRemove {α : Type} (m : List (Nat × α)) (k : Nat) : List (Nat × α) :=
  m.filter fun e => e.1 != k

/-- A `PropertyMap`: properties keyed by their variant discriminant. -/
abbrev PropertyMap := List (Nat × Property)

/-- The entity-state map of `writer_thread`. -/
abbrev EntityMap := List (Nat × PropertyMap)

/-- `props_map` in `main.rs`: key each property by its discriminant; a later
duplicate tag wins. -/
def props_map (props : List Property) : PropertyMap :=
  props.foldl (fun m p => alInsert m (tagOf p) p) []

/-- `HashMap::extend`: merge `extra` into `m`, `extra`'s entries winning. -/
def pmExtend (m extra : PropertyMap) : PropertyMap :=
  extra.foldl (fun acc tp => alInsert acc tp.1 tp.2) m

/-- One property of the new update folded against the stored state: the body
of the `changed_props` loop of `writer_thread`. -/
def changedStep (stored : PropertyMap) (acc : PropertyMap) (tp : Nat × Property) : PropertyMap :=
  match alLookup stored tp.1 with
  | some prev =>
    match prev, tp.2 with
    | .T prev_coord, .T curr_coord =>
      let delta := Coords.delta prev_coord curr_coord
      if coordsEqR delta Coords.dfl then acc else alInsert acc tp.1 (.T delta)
    -- `unreachable!()` in the source: equal tags mean equal variants.
    | .T _, _ => acc
    | _, _ => if propEqR prev tp.2 then acc else alInsert acc tp.1 tp.2
  | none => alInsert acc tp.1 tp.2

/-- The `changed_props` computation of `writer_thread` for a known entity:
for each property of the new update, keep it iff it is new or differs from
the stored value; for the `T` tag keep the coordinate delta iff it is not
all-blank. -/
def changedProps (stored : PropertyMap) (props : PropertyMap) : PropertyMap :=
  props.foldl (changedStep stored) []

/-- The state of `writer_thread`, together with the records written so far. -/
structure WState where
  this_frame : F
  active_entities : EntityMap
  out : List Record
  deriving DecidableEq

/-- The initial writer state (`this_frame = 0`, no active entities). -/
def initWState : WState := ⟨F.val 0, [], []⟩

/-- The coordinate fix-up loop at the head of the `Update` arm of
`writer_thread`: re-anchor every `T` property in place. -/
def offsetProps (reference_ll new_reference_ll : LL) (props : List Property) : List Property :=
  props.map fun p =>
    match p with
    | .T c => Property.T (offset_coords reference_ll new_reference_ll c)
    | p => p

/-- One iteration of the `writer_thread` receive loop in `main.rs`: process
one record, appending whatever is written to `out`. -/
def writerStep (reference_ll new_reference_ll : LL) (s : WState) : Record → WState
  | .GlobalProperty gp =>
    match gp with
    | .ReferenceLatitude _ =>
      { s with out := s.out ++ [.GlobalProperty (.ReferenceLatitude new_reference_ll.lat)] }
    | .ReferenceLongitude _ =>
      { s with out := s.out ++ [.GlobalProperty (.ReferenceLongitude new_reference_ll.lon)] }
    | not_ll => { s with out := s.out ++ [.GlobalProperty not_ll] }
  | .Event e => { s with out := s.out ++ [.Event e] }
  | .Frame ts =>
    if F.beq ts s.this_frame then s
    else { s with this_frame := ts, out := s.out ++ [.Frame ts] }
  | .Update u =>
    let props := props_map (offsetProps reference_ll new_reference_ll u.props)
    match alLookup s.active_entities u.id with
    | none =>
      { s with
        active_entities := alInsert s.active_entities u.id props
        out := s.out ++ [.Update ⟨u.id, props.map Prod.snd⟩] }
    | some stored =>
      let changed := changedProps stored props
      if changed.isEmpty then s
      else
        { s with
          active_entities := alInsert s.active_entities u.id (pmExtend stored changed)
          out := s.out ++ [.Update ⟨u.id, changed.map Prod.snd⟩] }
  | .Remove i =>
    match alLookup s.active_entities i with
    | some _ =>
      { s with
        active_entities := alRemove s.active_entities i
        out := s.out ++ [.Remove i] }
    | none => s

/-- The whole `writer_thread` loop over a record stream. -/
def writerRun (reference_ll new_reference_ll : LL) (records : List Record) : WState :=
  records.foldl (writerStep reference_ll new_reference_ll) initWState

/-- The anchor computation of `run` in `main.rs`: original reference from the
header pass, minimum from the scan pass over the remaining records, new
reference by flooring their sums. -/
def anchors (records : List Record) : LL × LL :=
  let p := parse_original_ll records LL.dfl
  let min_ll := find_min_ll p.2
  (p.1, { lat := (p.1.lat.add min_ll.lat).floor, lon := (p.1.lon.add min_ll.lon).floor })

/-- The whole program on a record stream: compute anchors in pass 1, rewrite
every record in pass 2 (pass 2 re-reads the file from the start). -/
def pipeline (records : List Record) : WState :=
  writerRun (anchors records).1 (anchors records).2 records

/-- Do all `offset_coords` assertions pass when pass 2 processes `r`? -/
def recordAssertsOk (old_ref new_ref : LL) : Record → Bool
  | .Update u =>
    u.props.all fun p =>
      match p with
      | .T c => offsetAssertsOk old_ref new_ref c
      | _ => true
  | _ => true

/-- Do the positivity assertions hold for every record of the stream, under
the anchors the program computes for that stream? -/
def allAssertsOk (records : List Record) : Bool :=
  records.all (recordAssertsOk (anchors records).1 (anchors records).2)

/-! ### Order facts about the float model -/

theorem F.fle_refl (a : F) : a.fle a = true := by
  cases a <;> simp [F.fle]

theorem F.fle_total (a b : F) : a.fle b = true ∨ b.fle a = true := by
  cases a <;> cases b <;> simp [F.fle] <;> exact le_total _ _

theorem F.fle_trans {a b c : F} (h1 : a.fle b = true) (h2 : b.fle c = true) :
    a.fle c = true := by
  cases a <;> cases b <;> cases c <;> simp_all [F.fle] <;> exact le_trans h1 h2

theorem F.fle_antisymm {a b : F} (h1 : a.fle b = true) (h2 : b.fle a = true) : a = b := by
  cases a <;> cases b <;> simp_all [F.fle] <;> exact le_antisymm h1 h2

theorem fmin_le_left (a b : F) : (fmin a b).fle a = true := by
  unfold fmin
  cases h : a.fle b with
  | true => simp [F.fle_refl]
  | false =>
    rcases F.fle_total a b with h' | h'
    · rw [h'] at h; cases h
    · simpa using h'

theorem fmin_le_right (a b : F) : (fmin a b).fle b = true := by
  unfold fmin
  cases h : a.fle b with
  | true => simpa using h
  | false => simp [F.fle_refl]

theorem F.beq_symm (a b : F) : a.beq b = b.beq a := by
  cases a <;> cases b <;> simp [F.beq, BEq.comm]

/-! ### Association list facts -/

theorem alLookup_insert_self {α : Type} (m : List (Nat × α)) (k : Nat) (v : α) :
    alLookup (alInsert m k v) k = some v := by
  induction m with
  | nil => simp [alInsert, alLookup]
  | cons e rest ih =>
    by_cases h : e.1 = k
    · simp [alInsert, alLookup, h]
    · simp [alInsert, alLookup, h, ih]

theorem alLookup_insert_ne {α : Type} (m : List (Nat × α)) (k j : Nat) (v : α)
    (h : j ≠ k) : alLookup (alInsert m k v) j = alLookup m j := by
  induction m with
  | nil => simp [alInsert, alLookup, Ne.symm h]
  | cons e rest ih =>
    obtain ⟨a, b⟩ := e
    by_cases h' : a = k
    · have haj : ¬a = j := by rw [h']; exact Ne.symm h
      simp [alInsert, alLookup, h', haj, Ne.symm h]
    · by_cases h'' : a = j
      · simp [alInsert, alLookup, h', h'', h]
      · simp [alInsert, alLookup, h', h'', ih]

theorem alLookup_remove_self {α : Type} (m : List (Nat × α)) (k : Nat) :
    alLookup (alRemove m k) k = none := by
  induction m with
  | nil => rfl
  | cons e rest ih =>
    obtain ⟨a, b⟩ := e
    by_cases h' : a = k
    · have h1 : alRemove ((a, b) :: rest) k = alRemove rest k := by
        simp [alRemove, List.filter_cons, h']
      rw [h1, ih]
    · have h1 : alRemove ((a, b) :: rest) k = (a, b) :: alRemove rest k := by
        simp [alRemove, List.filter_cons, h']
      rw [h1]
      simpa [alLookup, h'] using ih

theorem alLookup_remove_ne {α : Type} (m : List (Nat × α)) (k j : Nat) (h : j ≠ k) :
    alLookup (alRemove m k) j = alLookup m j := by
  induction m with
  | nil => rfl
  | cons e rest ih =>
    obtain ⟨a, b⟩ := e
    by_cases h' : a = k
    · have haj : ¬a = j := by rw [h']; exact Ne.symm h
      have h1 : alRemove ((a, b) :: rest) k = alRemove rest k := by
        simp [alRemove, List.filter_cons, h']
      have h2 : alLookup ((a, b) :: rest) j = alLookup rest j := by
        simp [alLookup, haj]
      rw [h1, h2, ih]
    · have h1 : alRemove ((a, b) :: rest) k = (a, b) :: alRemove rest k := by
        simp [alRemove, List.filter_cons, h']
      rw [h1]
      by_cases h'' : a = j
      · subst h''
        simp [alLookup]
      · simp [alLookup, h'', ih]

/-! ### Spec-side descriptions of the two pass-1 phases -/

/-- Is the record a `GlobalProperty`? -/
def isGlobalRec : Record → Bool
  | .GlobalProperty _ => true
  | _ => false

/-- One header record applied to the reference accumulator. -/
def applyGlobal (ll : LL) : GlobalProperty → LL
  | .ReferenceLatitude lat => { ll with lat := lat }
  | .ReferenceLongitude lon => { ll with lon := lon }
  | _ => ll

/-- The header fold step over a whole record. -/
def headerStep (ll : LL) (r : Record) : LL :=
  match r with
  | .GlobalProperty gp => applyGlobal ll gp
  | _ => ll

/-- Modelled from the spec (header phase): the reference obtained by folding
the leading run of `GlobalProperty` records, each axis defaulting to 0. -/
def headerRef (records : List Record) : LL :=
  (records.takeWhile isGlobalRec).foldl headerStep LL.dfl

/-- The coordinates of an update's first `T` property, if any: what the scan
pass inspects. -/
def firstT (props : List Property) : Option Coords :=
  match props.find? Property.isT with
  | some (.T c) => some c
  | _ => none

/-- What the scan pass inspects in one record. -/
def scanOf : Record → Option Coords
  | .Update u => firstT u.props
  | _ => none

/-- The coordinates the scan pass inspects, in order. -/
def scannedCoords (records : List Record) : List Coords :=
  records.filterMap scanOf

/-- All latitude observations of the scan pass. -/
def observedLats (records : List Record) : List F :=
  (scannedCoords records).filterMap Coords.latitude

/-- All longitude observations of the scan pass. -/
def observedLons (records : List Record) : List F :=
  (scannedCoords records).filterMap Coords.longitude

/-- Modelled from the spec: the minimum of a list of observations under the
total `FloatOrd` order, defaulting to 0 when there are none. -/
def minOrZero : List F → F
  | [] => F.val 0
  | x :: xs => xs.foldl fmin x

/-- One observation folded into an optional running minimum. -/
def oStep (a : Option F) (x : F) : Option F :=
  some (match a with | none => x | some prev => fmin prev x)

theorem parse_original_ll_eq (records : List Record) (ll : LL) :
    parse_original_ll records ll =
      ((records.takeWhile isGlobalRec).foldl headerStep ll,
        (records.dropWhile isGlobalRec).tail) := by
  induction records generalizing ll with
  | nil => rfl
  | cons r rest ih =>
    cases r with
    | GlobalProperty gp =>
      cases gp <;>
        simp [parse_original_ll, List.takeWhile_cons, List.dropWhile_cons, isGlobalRec,
          headerStep, applyGlobal, ih]
    | Event e =>
      simp [parse_original_ll, List.takeWhile_cons, List.dropWhile_cons, isGlobalRec]
    | Frame ts =>
      simp [parse_original_ll, List.takeWhile_cons, List.dropWhile_cons, isGlobalRec]
    | Update u =>
      simp [parse_original_ll, List.takeWhile_cons, List.dropWhile_cons, isGlobalRec]
    | Remove i =>
      simp [parse_original_ll, List.takeWhile_cons, List.dropWhile_cons, isGlobalRec]

theorem observedLats_cons (r : Record) (rest : List Record) :
    observedLats (r :: rest) = observedLats [r] ++ observedLats rest := by
  simp only [observedLats, scannedCoords, List.filterMap_cons]
  cases hr : scanOf r with
  | none => simp
  | some c =>
    cases hc : c.latitude <;> simp [List.filterMap_cons, hc]

theorem observedLons_cons (r : Record) (rest : List Record) :
    observedLons (r :: rest) = observedLons [r] ++ observedLons rest := by
  simp only [observedLons, scannedCoords, List.filterMap_cons]
  cases hr : scanOf r with
  | none => simp
  | some c =>
    cases hc : c.longitude <;> simp [List.filterMap_cons, hc]

theorem minStep_obs (acc : Option F × Option F) (r : Record) :
    minStep acc r =
      ((observedLats [r]).foldl oStep acc.1, (observedLons [r]).foldl oStep acc.2) := by
  cases r with
  | Update u =>
    simp only [minStep, observedLats, observedLons, scannedCoords, scanOf, firstT,
      List.filterMap_cons, List.filterMap_nil]
    cases h : u.props.find? Property.isT with
    | none => simp
    | some p =>
      have hp : p.isT = true := List.find?_some h
      cases p with
      | T c =>
        cases hlat : c.latitude <;> cases hlon : c.longitude <;>
          simp [hlat, hlon, oStep, List.filterMap_cons]
      | other t s => simp [Property.isT] at hp
  | GlobalProperty gp => rfl
  | Event e => rfl
  | Frame ts => rfl
  | Remove i => rfl

theorem foldl_minStep_obs (records : List Record) (acc : Option F × Option F) :
    records.foldl minStep acc =
      ((observedLats records).foldl oStep acc.1,
        (observedLons records).foldl oStep acc.2) := by
  induction records generalizing acc with
  | nil => simp [observedLats, observedLons, scannedCoords]
  | cons r rest ih =>
    rw [List.foldl_cons, ih, minStep_obs, observedLats_cons r rest, observedLons_cons r rest,
      List.foldl_append, List.foldl_append]

theorem foldl_oStep_some (xs : List F) (m : F) :
    xs.foldl oStep (some m) = some (xs.foldl fmin m) := by
  induction xs generalizing m with
  | nil => rfl
  | cons x xs ih => simp [oStep, ih]

theorem getD_foldl_oStep (l : List F) :
    (l.foldl oStep none).getD (F.val 0) = minOrZero l := by
  cases l with
  | nil => rfl
  | cons x xs => simp [minOrZero, foldl_oStep_some, oStep]

/-- The scan pass computes exactly the per-axis minimum (under the total
`FloatOrd` order) of the observations drawn from the first `T` property of
each update, with 0 for an axis that was never observed. -/
theorem find_min_ll_eq (records : List Record) :
    find_min_ll records =
      { lat := minOrZero (observedLats records), lon := minOrZero (observedLons records) } := by
  unfold find_min_ll
  rw [foldl_minStep_obs]
  simp [getD_foldl_oStep]

theorem foldl_fmin_le (xs : List F) (m : F) :
    (xs.foldl fmin m).fle m = true ∧ ∀ x ∈ xs, (xs.foldl fmin m).fle x = true := by
  induction xs generalizing m with
  | nil => simp [F.fle_refl]
  | cons y ys ih =>
    refine ⟨F.fle_trans (ih (fmin m y)).1 (fmin_le_left m y), ?_⟩
    intro x hx
    rcases List.mem_cons.mp hx with rfl | hx
    · exact F.fle_trans (ih (fmin m x)).1 (fmin_le_right m x)
    · exact (ih (fmin m y)).2 x hx

theorem minOrZero_le (l : List F) (x : F) (hx : x ∈ l) :
    (minOrZero l).fle x = true := by
  cases l with
  | nil => cases hx
  | cons y ys =>
    rcases List.mem_cons.mp hx with rfl | hx
    · exact (foldl_fmin_le ys x).1
    · exact (foldl_fmin_le ys y).2 x hx

theorem mem_observedLats {records : List Record} {u : Update} {c : Coords} {x : F}
    (hu : Record.Update u ∈ records) (hc : firstT u.props = some c)
    (hx : c.latitude = some x) : x ∈ observedLats records := by
  unfold observedLats scannedCoords
  exact List.mem_filterMap.mpr
    ⟨c, List.mem_filterMap.mpr ⟨Record.Update u, hu, by simp [scanOf, hc]⟩, hx⟩

theorem mem_observedLons {records : List Record} {u : Update} {c : Coords} {x : F}
    (hu : Record.Update u ∈ records) (hc : firstT u.props = some c)
    (hx : c.longitude = some x) : x ∈ observedLons records := by
  unfold observedLons scannedCoords
  exact List.mem_filterMap.mpr
    ⟨c, List.mem_filterMap.mpr ⟨Record.Update u, hu, by simp [scanOf, hc]⟩, hx⟩

theorem fmin_choice (a b : F) : fmin a b = a ∨ fmin a b = b := by
  unfold fmin
  by_cases h : a.fle b = true <;> simp [h]

theorem foldl_fmin_mem (xs : List F) (m : F) :
    xs.foldl fmin m = m ∨ xs.foldl fmin m ∈ xs := by
  induction xs generalizing m with
  | nil => simp
  | cons y ys ih =>
    rw [List.foldl_cons]
    rcases ih (fmin m y) with h | h
    · rw [h]
      rcases fmin_choice m y with h' | h'
      · exact Or.inl h'
      · exact Or.inr (by rw [h']; exact List.mem_cons_self y ys)
    · exact Or.inr (List.mem_cons_of_mem y h)

theorem minOrZero_mem (l : List F) (h : l ≠ []) : minOrZero l ∈ l := by
  cases l with
  | nil => exact absurd rfl h
  | cons x xs =>
    rcases foldl_fmin_mem xs x with h' | h'
    · exact List.mem_cons.mpr (Or.inl ((show minOrZero (x :: xs) = xs.foldl fmin x from rfl).trans h'))
    · exact List.mem_cons_of_mem x h'

/-- C7: the header pass consumes records while they are `GlobalProperty`,
recording `ReferenceLatitude` and `ReferenceLongitude` into the reference
with each axis defaulting to 0 (the fold of `applyGlobal` starting from
`LL.dfl`), and stops at the first non-`GlobalProperty` record, which is
discarded for pass 1 (the returned rest is the tail after the dropped
record). -/
theorem header_phase_characterisation (records : List Record) :
    parse_original_ll records LL.dfl =
      (headerRef records, (records.dropWhile isGlobalRec).tail) :=
  parse_original_ll_eq records LL.dfl

/-- C3: the new reference anchor satisfies `new = floor(orig + min)` per
axis, where `min` is the minimum (a lower bound that is attained) of the
latitude (resp. longitude) observations of the scan pass, an axis without
observations contributing 0. -/
theorem anchor_formula (records : List Record) :
    ((anchors records).2.lat =
        F.floor ((anchors records).1.lat.add
          (minOrZero (observedLats (parse_original_ll records LL.dfl).2))))
    ∧ ((anchors records).2.lon =
        F.floor ((anchors records).1.lon.add
          (minOrZero (observedLons (parse_original_ll records LL.dfl).2))))
    ∧ (∀ x ∈ observedLats (parse_original_ll records LL.dfl).2,
        (minOrZero (observedLats (parse_original_ll records LL.dfl).2)).fle x = true)
    ∧ (∀ x ∈ observedLons (parse_original_ll records LL.dfl).2,
        (minOrZero (observedLons (parse_original_ll records LL.dfl).2)).fle x = true)
    ∧ (∀ l : List F, l ≠ [] → minOrZero l ∈ l)
    ∧ (minOrZero [] = F.val 0) := by
  refine ⟨?_, ?_, ?_, ?_, minOrZero_mem, rfl⟩
  · simp only [anchors]
    rw [find_min_ll_eq]
  · simp only [anchors]
    rw [find_min_ll_eq]
  · exact fun x hx => minOrZero_le _ x hx
  · exact fun x hx => minOrZero_le _ x hx

/-- C4: the scan pass folds the per-axis minima over exactly the first `T`
property of each `Update` (all other records and properties are ignored,
captured by `observedLats`/`observedLons` drawing from `firstT` only), under
the `FloatOrd` comparison, which is a total order on the float model in which
NaN sorts as greatest. -/
theorem scan_fold_characterisation (records : List Record) :
    (find_min_ll records =
      { lat := minOrZero (observedLats records), lon := minOrZero (observedLons records) })
    ∧ (∀ a b : F, a.fle b = true ∨ b.fle a = true)
    ∧ (∀ a b : F, a.fle b = true → b.fle a = true → a = b)
    ∧ (∀ a b c : F, a.fle b = true → b.fle c = true → a.fle c = true)
    ∧ (∀ x : F, x.fle F.nan = true)
    ∧ (∀ q : ℚ, F.nan.fle (F.val q) = false)
    ∧ (∀ a b : F, fmin a b = if a.fle b then a else b) :=
  ⟨find_min_ll_eq records, F.fle_total, fun _ _ => F.fle_antisymm,
    fun _ _ _ => F.fle_trans, fun x => by cases x <;> rfl, fun _ => rfl, fun _ _ => rfl⟩

/-- Witness for `anchor_formula`: at a concrete input, the observed minimum
is a lower bound of a concrete observation. -/
theorem anchor_formula_witness :
    (minOrZero (observedLats (parse_original_ll
        [Record.Frame (F.val 1),
         Record.Update ⟨1, [Property.T ⟨some (F.val 5), some (F.val 6), none⟩]⟩,
         Record.Update ⟨1, [Property.T ⟨some (F.val 3), none, none⟩]⟩] LL.dfl).2)).fle
      (F.val 5) = true :=
  (anchor_formula _).2.2.1 (F.val 5) (by decide)

/-- Witness for `scan_fold_characterisation`: transitivity of the `FloatOrd`
order at concrete values. -/
theorem scan_fold_characterisation_witness :
    (F.val 0).fle (F.val 2) = true :=
  (scan_fold_characterisation []).2.2.2.1 (F.val 0) (F.val 1) (F.val 2) (by decide) (by decide)

/-! ### Validity conditions and the anchor-positivity claim -/

/-- Does every update of the stream carry at most one `T` property? -/
def singleTOk (records : List Record) : Bool :=
  records.all fun r =>
    match r with
    | .Update u => decide (u.props.countP Property.isT ≤ 1)
    | _ => true

/-- Is the record consumed between pass 1's header and scan phases not an
update (otherwise its coordinates escape the scan)? -/
def droppedNotUpdate (records : List Record) : Bool :=
  match records.dropWhile isGlobalRec with
  | .Update _ :: _ => false
  | _ => true

/-- Are the latitude/longitude fields of one property numeric (no NaN)? -/
def propNumOk : Property → Bool
  | .T c =>
    (match c.latitude with | some x => x.isNum | none => true) &&
      (match c.longitude with | some x => x.isNum | none => true)
  | _ => true

/-- Are all coordinate fields of one record numeric (no NaN)? -/
def recNumOk : Record → Bool
  | .Update u => u.props.all propNumOk
  | _ => true

/-- Are all latitude/longitude coordinate fields in the stream numeric
(no NaN)? -/
def coordsNumOk (records : List Record) : Bool :=
  records.all recNumOk

theorem firstT_of_single {props : List Property} {c : Coords}
    (hcount : props.countP Property.isT ≤ 1) (hmem : Property.T c ∈ props) :
    firstT props = some c := by
  induction props with
  | nil => cases hmem
  | cons p ps ih =>
    cases p with
    | T c' =>
      have hz : ps.countP Property.isT = 0 := by
        rw [List.countP_cons_of_pos _ _ rfl] at hcount
        omega
      have hnot : Property.T c ∉ ps := by
        intro hin
        have : 0 < ps.countP Property.isT :=
          List.countP_pos_iff.mpr ⟨Property.T c, hin, rfl⟩
        omega
      have hcc : c = c' := by
        rcases List.mem_cons.mp hmem with h | h
        · exact (Property.T.injEq c c').mp h
        · exact absurd h hnot
      subst hcc
      unfold firstT
      rw [List.find?_cons_of_pos ps rfl]
    | other t s =>
      have h1 : firstT (Property.other t s :: ps) = firstT ps := by
        simp [firstT, List.find?_cons_of_neg, Property.isT]
      have h2 : ps.countP Property.isT ≤ 1 := by
        simpa [List.countP_cons, Property.isT] using hcount
      have h3 : Property.T c ∈ ps := by
        rcases List.mem_cons.mp hmem with h | h
        · cases h
        · exact h
      rw [h1]
      exact ih h2 h3

theorem update_mem_rest {records : List Record} {u : Update}
    (h2 : droppedNotUpdate records = true) (hu : Record.Update u ∈ records) :
    Record.Update u ∈ (parse_original_ll records LL.dfl).2 := by
  rw [parse_original_ll_eq]
  have hsplit : records.takeWhile isGlobalRec ++ records.dropWhile isGlobalRec = records :=
    List.takeWhile_append_dropWhile isGlobalRec records
  rw [← hsplit] at hu
  rcases List.mem_append.mp hu with h | h
  · have := List.mem_takeWhile_imp h
    simp [isGlobalRec] at this
  · unfold droppedNotUpdate at h2
    cases hdrop : records.dropWhile isGlobalRec with
    | nil => rw [hdrop] at h; cases h
    | cons d ds =>
      rw [hdrop] at h h2
      rcases List.mem_cons.mp h with h' | h'
      · rw [← h'] at h2; simp at h2
      · simpa using h'

theorem fle_val_inv {a : F} {q : ℚ} (h : a.fle (F.val q) = true) :
    ∃ m : ℚ, a = F.val m ∧ m ≤ q := by
  cases a with
  | nan => simp [F.fle] at h
  | val m => exact ⟨m, rfl, by simpa [F.fle] using h⟩

theorem offset_nonneg_core {q r m : ℚ} (hle : m ≤ q) :
    (F.val 0).fle (((F.val q).add (F.val r)).sub (((F.val r).add (F.val m)).floor)) = true := by
  simp only [F.add, F.floor, F.sub, qadd_eq, qsub_eq, qfloor_eq, F.fle, decide_eq_true_eq]
  have hfl : ((⌊r + m⌋ : ℤ) : ℚ) ≤ r + m := Int.floor_le _
  linarith [hfl]

theorem isNum_val {a : F} (h : a.isNum = true) : ∃ q, a = F.val q := by
  cases a with
  | nan => simp [F.isNum] at h
  | val q => exact ⟨q, rfl⟩

theorem coordsNum_lat {records : List Record} {u : Update} {c : Coords} {x : F}
    (h3 : coordsNumOk records = true) (hu : Record.Update u ∈ records)
    (hc : Property.T c ∈ u.props) (hx : c.latitude = some x) : ∃ q, x = F.val q := by
  have h : recNumOk (Record.Update u) = true := List.all_eq_true.mp h3 _ hu
  have h' : u.props.all propNumOk = true := h
  have hp : ((match c.latitude with | some y => y.isNum | none => true) &&
      (match c.longitude with | some y => y.isNum | none => true)) = true :=
    List.all_eq_true.mp h' _ hc
  rw [hx] at hp
  exact isNum_val (Bool.and_eq_true_iff.mp hp).1

theorem coordsNum_lon {records : List Record} {u : Update} {c : Coords} {x : F}
    (h3 : coordsNumOk records = true) (hu : Record.Update u ∈ records)
    (hc : Property.T c ∈ u.props) (hx : c.longitude = some x) : ∃ q, x = F.val q := by
  have h : recNumOk (Record.Update u) = true := List.all_eq_true.mp h3 _ hu
  have h' : u.props.all propNumOk = true := h
  have hp : ((match c.latitude with | some y => y.isNum | none => true) &&
      (match c.longitude with | some y => y.isNum | none => true)) = true :=
    List.all_eq_true.mp h' _ hc
  rw [hx] at hp
  exact isNum_val (Bool.and_eq_true_iff.mp hp).2

/-- C1 (amended): for every input in which each update carries at most one
`T` property, the record consumed between the two pass-1 phases is not an
update, all coordinate fields are numeric and the parsed reference is
numeric, every present re-anchored latitude/longitude is ≥ 0.  (The strict
`> 0` of the source's assertion can fail; see
`anchor_positivity_counterexample`.) -/
theorem offset_coords_nonneg (records : List Record)
    (h1 : singleTOk records = true)
    (h2 : droppedNotUpdate records = true)
    (h3 : coordsNumOk records = true)
    (h4 : (anchors records).1.lat.isNum = true)
    (h5 : (anchors records).1.lon.isNum = true) :
    ∀ u c, Record.Update u ∈ records → Property.T c ∈ u.props →
      (∀ x, (offset_coords (anchors records).1 (anchors records).2 c).latitude = some x →
          (F.val 0).fle x = true) ∧
      (∀ x, (offset_coords (anchors records).1 (anchors records).2 c).longitude = some x →
          (F.val 0).fle x = true) := by
  intro u c hu hc
  have hcount : u.props.countP Property.isT ≤ 1 :=
    of_decide_eq_true (List.all_eq_true.mp h1 _ hu)
  have hfirst : firstT u.props = some c := firstT_of_single hcount hc
  have hrest : Record.Update u ∈ (parse_original_ll records LL.dfl).2 :=
    update_mem_rest h2 hu
  constructor
  · intro x hx
    have hx' : c.latitude.map
        (fun lat => (lat.add (anchors records).1.lat).sub (anchors records).2.lat) = some x := hx
    rcases Option.map_eq_some'.mp hx' with ⟨lat0, hlat0, hxval⟩
    obtain ⟨q, hq⟩ := coordsNum_lat h3 hu hc hlat0
    obtain ⟨r, hr⟩ := isNum_val h4
    have hobs : lat0 ∈ observedLats (parse_original_ll records LL.dfl).2 :=
      mem_observedLats hrest hfirst hlat0
    have hmin := minOrZero_le _ lat0 hobs
    rw [hq] at hmin
    obtain ⟨m, hm, hmq⟩ := fle_val_inv hmin
    have hanch : (anchors records).2.lat =
        ((anchors records).1.lat.add
          (minOrZero (observedLats (parse_original_ll records LL.dfl).2))).floor := by
      simp only [anchors]
      rw [find_min_ll_eq]
    rw [← hxval, hq, hanch, hm, hr]
    exact offset_nonneg_core hmq
  · intro x hx
    have hx' : c.longitude.map
        (fun lon => (lon.add (anchors records).1.lon).sub (anchors records).2.lon) = some x := hx
    rcases Option.map_eq_some'.mp hx' with ⟨lon0, hlon0, hxval⟩
    obtain ⟨q, hq⟩ := coordsNum_lon h3 hu hc hlon0
    obtain ⟨r, hr⟩ := isNum_val h5
    have hobs : lon0 ∈ observedLons (parse_original_ll records LL.dfl).2 :=
      mem_observedLons hrest hfirst hlon0
    have hmin := minOrZero_le _ lon0 hobs
    rw [hq] at hmin
    obtain ⟨m, hm, hmq⟩ := fle_val_inv hmin
    have hanch : (anchors records).2.lon =
        ((anchors records).1.lon.add
          (minOrZero (observedLons (parse_original_ll records LL.dfl).2))).floor := by
      simp only [anchors]
      rw [find_min_ll_eq]
    rw [← hxval, hq, hanch, hm, hr]
    exact offset_nonneg_core hmq

/-- C1 is false as stated: this valid input (reference (0,0), one update at
exactly (5,5)) re-anchors both axes to exactly 0, and the strict positivity
assertion of `offset_coords` fails. -/
theorem anchor_positivity_counterexample :
    allAssertsOk
      [Record.GlobalProperty (GlobalProperty.ReferenceLatitude (F.val 0)),
       Record.GlobalProperty (GlobalProperty.ReferenceLongitude (F.val 0)),
       Record.Frame (F.val 1),
       Record.Update ⟨1, [Property.T ⟨some (F.val 5), some (F.val 5), none⟩]⟩] = false := by
  decide

/-- Witness for `offset_coords_nonneg` at a concrete input: the re-anchored
latitude 2 + 1/2 − floor(1/2 + 2) = 1/2 is non-negative. -/
theorem offset_coords_nonneg_witness :
    (F.val 0).fle (F.val (mkRat 1 2)) = true :=
  (offset_coords_nonneg
      [Record.GlobalProperty (GlobalProperty.ReferenceLatitude (F.val (mkRat 1 2))),
       Record.Frame (F.val 1),
       Record.Update ⟨1, [Property.T ⟨some (F.val 2), some (F.val 3), none⟩]⟩]
      (by decide) (by decide) (by decide) (by decide) (by decide)
      ⟨1, [Property.T ⟨some (F.val 2), some (F.val 3), none⟩]⟩
      ⟨some (F.val 2), some (F.val 3), none⟩
      (by decide) (by decide)).1 (F.val (mkRat 1 2)) (by decide)

/-! ### The writer loop: per-record effects -/

/-- The records `writerStep` appends to the output for one input record. -/
def emittedBy (reference_ll new_reference_ll : LL) (s : WState) : Record → List Record
  | .GlobalProperty gp =>
    match gp with
    | .ReferenceLatitude _ => [.GlobalProperty (.ReferenceLatitude new_reference_ll.lat)]
    | .ReferenceLongitude _ => [.GlobalProperty (.ReferenceLongitude new_reference_ll.lon)]
    | not_ll => [.GlobalProperty not_ll]
  | .Event e => [.Event e]
  | .Frame ts => if F.beq ts s.this_frame then [] else [.Frame ts]
  | .Update u =>
    let props := props_map (offsetProps reference_ll new_reference_ll u.props)
    match alLookup s.active_entities u.id with
    | none => [.Update ⟨u.id, props.map Prod.snd⟩]
    | some stored =>
      let changed := changedProps stored props
      if changed.isEmpty then [] else [.Update ⟨u.id, changed.map Prod.snd⟩]
  | .Remove i =>
    match alLookup s.active_entities i with
    | some _ => [.Remove i]
    | none => []

theorem writerStep_frame (reference_ll new_reference_ll : LL) (s : WState) (ts : F) :
    writerStep reference_ll new_reference_ll s (.Frame ts) =
      if F.beq ts s.this_frame then s
      else { s with this_frame := ts, out := s.out ++ [.Frame ts] } := rfl

theorem writerStep_update_vacant (reference_ll new_reference_ll : LL) (s : WState) (u : Update)
    (h : alLookup s.active_entities u.id = none) :
    writerStep reference_ll new_reference_ll s (.Update u) =
      { s with
        active_entities := alInsert s.active_entities u.id
          (props_map (offsetProps reference_ll new_reference_ll u.props))
        out := s.out ++ [.Update ⟨u.id,
          (props_map (offsetProps reference_ll new_reference_ll u.props)).map Prod.snd⟩] } := by
  simp only [writerStep]
  rw [h]

theorem writerStep_update_known (reference_ll new_reference_ll : LL) (s : WState) (u : Update)
    (stored : PropertyMap) (h : alLookup s.active_entities u.id = some stored) :
    writerStep reference_ll new_reference_ll s (.Update u) =
      (if (changedProps stored
            (props_map (offsetProps reference_ll new_reference_ll u.props))).isEmpty then s
       else
        { s with
          active_entities := alInsert s.active_entities u.id
            (pmExtend stored (changedProps stored
              (props_map (offsetProps reference_ll new_reference_ll u.props))))
          out := s.out ++ [.Update ⟨u.id,
            (changedProps stored
              (props_map (offsetProps reference_ll new_reference_ll u.props))).map Prod.snd⟩] }) := by
  simp only [writerStep]
  rw [h]

theorem writerStep_remove_known (reference_ll new_reference_ll : LL) (s : WState) (i : Nat)
    (stored : PropertyMap) (h : alLookup s.active_entities i = some stored) :
    writerStep reference_ll new_reference_ll s (.Remove i) =
      { s with active_entities := alRemove s.active_entities i, out := s.out ++ [.Remove i] } := by
  simp only [writerStep]
  rw [h]

theorem writerStep_remove_unknown (reference_ll new_reference_ll : LL) (s : WState) (i : Nat)
    (h : alLookup s.active_entities i = none) :
    writerStep reference_ll new_reference_ll s (.Remove i) = s := by
  simp only [writerStep]
  rw [h]

theorem emittedBy_update_vacant (reference_ll new_reference_ll : LL) (s : WState) (u : Update)
    (h : alLookup s.active_entities u.id = none) :
    emittedBy reference_ll new_reference_ll s (.Update u) =
      [.Update ⟨u.id,
        (props_map (offsetProps reference_ll new_reference_ll u.props)).map Prod.snd⟩] := by
  simp only [emittedBy]
  rw [h]

theorem emittedBy_update_known (reference_ll new_reference_ll : LL) (s : WState) (u : Update)
    (stored : PropertyMap) (h : alLookup s.active_entities u.id = some stored) :
    emittedBy reference_ll new_reference_ll s (.Update u) =
      (if (changedProps stored
            (props_map (offsetProps reference_ll new_reference_ll u.props))).isEmpty then []
       else [.Update ⟨u.id,
        (changedProps stored
          (props_map (offsetProps reference_ll new_reference_ll u.props))).map Prod.snd⟩]) := by
  simp only [emittedBy]
  rw [h]

theorem emittedBy_remove_known (reference_ll new_reference_ll : LL) (s : WState) (i : Nat)
    (stored : PropertyMap) (h : alLookup s.active_entities i = some stored) :
    emittedBy reference_ll new_reference_ll s (.Remove i) = [.Remove i] := by
  simp only [emittedBy]
  rw [h]

theorem emittedBy_remove_unknown (reference_ll new_reference_ll : LL) (s : WState) (i : Nat)
    (h : alLookup s.active_entities i = none) :
    emittedBy reference_ll new_reference_ll s (.Remove i) = [] := by
  simp only [emittedBy]
  rw [h]

theorem writerStep_out (reference_ll new_reference_ll : LL) (s : WState) (r : Record) :
    (writerStep reference_ll new_reference_ll s r).out =
      s.out ++ emittedBy reference_ll new_reference_ll s r := by
  cases r with
  | GlobalProperty gp => cases gp <;> rfl
  | Event e => rfl
  | Frame ts =>
    rw [writerStep_frame]
    simp only [emittedBy]
    by_cases h : F.beq ts s.this_frame <;> simp [h]
  | Update u =>
    cases h : alLookup s.active_entities u.id with
    | none =>
      rw [writerStep_update_vacant _ _ _ _ h, emittedBy_update_vacant _ _ _ _ h]
    | some stored =>
      rw [writerStep_update_known _ _ _ _ _ h, emittedBy_update_known _ _ _ _ _ h]
      by_cases hch : (changedProps stored
          (props_map (offsetProps reference_ll new_reference_ll u.props))).isEmpty <;>
        simp [hch]
  | Remove i =>
    cases h : alLookup s.active_entities i with
    | none => rw [writerStep_remove_unknown _ _ _ _ h, emittedBy_remove_unknown _ _ _ _ h]; simp
    | some stored =>
      rw [writerStep_remove_known _ _ _ _ _ h, emittedBy_remove_known _ _ _ _ _ h]

/-- Fold a state invariant through the whole writer loop. -/
theorem writerRun_inv (reference_ll new_reference_ll : LL) (P : WState → Prop)
    (hstep : ∀ s r, P s → P (writerStep reference_ll new_reference_ll s r))
    (records : List Record) (s : WState) (hs : P s) :
    P (records.foldl (writerStep reference_ll new_reference_ll) s) := by
  induction records generalizing s with
  | nil => exact hs
  | cons r rest ih => exact ih _ (hstep s r hs)

/-- C10: processing one record touches at most the entity-state entry named
by that record: global properties, events and frames leave the entity map
untouched; an update changes only its own id's entry (creating it if
absent); a removal only deletes its own id's entry. -/
theorem step_frame_effect (reference_ll new_reference_ll : LL) (s : WState) :
    (∀ gp, (writerStep reference_ll new_reference_ll s (.GlobalProperty gp)).active_entities
        = s.active_entities)
    ∧ (∀ e, (writerStep reference_ll new_reference_ll s (.Event e)).active_entities
        = s.active_entities)
    ∧ (∀ ts, (writerStep reference_ll new_reference_ll s (.Frame ts)).active_entities
        = s.active_entities)
    ∧ (∀ u j, j ≠ u.id →
        alLookup (writerStep reference_ll new_reference_ll s (.Update u)).active_entities j
          = alLookup s.active_entities j)
    ∧ (∀ u, (alLookup
        (writerStep reference_ll new_reference_ll s (.Update u)).active_entities u.id).isSome
          = true)
    ∧ (∀ i j, j ≠ i →
        alLookup (writerStep reference_ll new_reference_ll s (.Remove i)).active_entities j
          = alLookup s.active_entities j)
    ∧ (∀ i, alLookup
        (writerStep reference_ll new_reference_ll s (.Remove i)).active_entities i = none) := by
  refine ⟨?_, fun e => rfl, ?_, ?_, ?_, ?_, ?_⟩
  · intro gp; cases gp <;> rfl
  · intro ts
    rw [writerStep_frame]
    by_cases h : F.beq ts s.this_frame <;> simp [h]
  · intro u j hj
    cases h : alLookup s.active_entities u.id with
    | none =>
      rw [writerStep_update_vacant _ _ _ _ h]
      exact alLookup_insert_ne _ _ _ _ hj
    | some stored =>
      rw [writerStep_update_known _ _ _ _ _ h]
      by_cases hch : (changedProps stored
          (props_map (offsetProps reference_ll new_reference_ll u.props))).isEmpty
      · simp [hch]
      · simp only [hch, if_neg, Bool.false_eq_true, not_false_eq_true]
        exact alLookup_insert_ne _ _ _ _ hj
  · intro u
    cases h : alLookup s.active_entities u.id with
    | none =>
      rw [writerStep_update_vacant _ _ _ _ h]
      simp [alLookup_insert_self]
    | some stored =>
      rw [writerStep_update_known _ _ _ _ _ h]
      by_cases hch : (changedProps stored
          (props_map (offsetProps reference_ll new_reference_ll u.props))).isEmpty
      · simp [hch, h]
      · simp [hch, alLookup_insert_self]
  · intro i j hj
    cases h : alLookup s.active_entities i with
    | none => rw [writerStep_remove_unknown _ _ _ _ h]
    | some stored =>
      rw [writerStep_remove_known _ _ _ _ _ h]
      exact alLookup_remove_ne _ _ _ hj
  · intro i
    cases h : alLookup s.active_entities i with
    | none => rw [writerStep_remove_unknown _ _ _ _ h]; exact h
    | some stored =>
      rw [writerStep_remove_known _ _ _ _ _ h]
      exact alLookup_remove_self _ _

/-- Witness for `step_frame_effect`: a removal of id 5 leaves id 4's (empty)
entry alone. -/
theorem step_frame_effect_witness :
    alLookup (writerStep LL.dfl LL.dfl initWState (.Remove 5)).active_entities 4
      = alLookup initWState.active_entities 4 :=
  (step_frame_effect LL.dfl LL.dfl initWState).2.2.2.2.2.1 5 4 (by decide)

/-! ### Frame idempotence -/

/-- The frame timestamps of a record stream, in order. -/
def framesOf (l : List Record) : List F :=
  l.filterMap fun r => match r with | .Frame t => some t | _ => none

theorem framesOf_append (l1 l2 : List Record) :
    framesOf (l1 ++ l2) = framesOf l1 ++ framesOf l2 :=
  List.filterMap_append l1 l2 _

theorem framesOf_emittedBy (reference_ll new_reference_ll : LL) (s : WState) (r : Record)
    (h : ∀ t, r ≠ .Frame t) : framesOf (emittedBy reference_ll new_reference_ll s r) = [] := by
  cases r with
  | Frame t => exact absurd rfl (h t)
  | GlobalProperty gp => cases gp <;> rfl
  | Event e => rfl
  | Update u =>
    cases hl : alLookup s.active_entities u.id with
    | none => rw [emittedBy_update_vacant _ _ _ _ hl]; rfl
    | some stored =>
      rw [emittedBy_update_known _ _ _ _ _ hl]
      by_cases hch : (changedProps stored
          (props_map (offsetProps reference_ll new_reference_ll u.props))).isEmpty <;>
        simp [hch, framesOf]
  | Remove i =>
    cases hl : alLookup s.active_entities i with
    | none => rw [emittedBy_remove_unknown _ _ _ _ hl]; rfl
    | some stored => rw [emittedBy_remove_known _ _ _ _ _ hl]; rfl

theorem writerStep_this_frame (reference_ll new_reference_ll : LL) (s : WState) (r : Record)
    (h : ∀ t, r ≠ .Frame t) :
    (writerStep reference_ll new_reference_ll s r).this_frame = s.this_frame := by
  cases r with
  | Frame t => exact absurd rfl (h t)
  | GlobalProperty gp => cases gp <;> rfl
  | Event e => rfl
  | Update u =>
    cases hl : alLookup s.active_entities u.id with
    | none => rw [writerStep_update_vacant _ _ _ _ hl]
    | some stored =>
      rw [writerStep_update_known _ _ _ _ _ hl]
      by_cases hch : (changedProps stored
          (props_map (offsetProps reference_ll new_reference_ll u.props))).isEmpty <;>
        simp [hch]
  | Remove i =>
    cases hl : alLookup s.active_entities i with
    | none => rw [writerStep_remove_unknown _ _ _ _ hl]
    | some stored => rw [writerStep_remove_known _ _ _ _ _ hl]

/-- The frame-stream invariant: `this_frame` is the last emitted frame
timestamp (if any), and no two adjacent emitted frames are Rust-equal. -/
def FrameInv (s : WState) : Prop :=
  (∀ t, (framesOf s.out).getLast? = some t → t = s.this_frame)
    ∧ List.Chain' (fun a b => F.beq a b = false) (framesOf s.out)

theorem frameInv_step (reference_ll new_reference_ll : LL) (s : WState) (r : Record)
    (h : FrameInv s) : FrameInv (writerStep reference_ll new_reference_ll s r) := by
  obtain ⟨hlast, hchain⟩ := h
  by_cases hf : ∃ t, r = .Frame t
  · obtain ⟨ts, rfl⟩ := hf
    rw [writerStep_frame]
    by_cases hbeq : F.beq ts s.this_frame
    · simpa [hbeq] using ⟨hlast, hchain⟩
    · rw [if_neg (by simp [hbeq])]
      have hfr : framesOf (s.out ++ [Record.Frame ts]) = framesOf s.out ++ [ts] := by
        rw [framesOf_append]; rfl
      constructor
      · intro t ht
        simp only [hfr, List.getLast?_concat] at ht
        simpa using ht.symm
      · simp only [hfr]
        rw [List.chain'_append]
        refine ⟨hchain, List.chain'_singleton ts, ?_⟩
        intro x hx y hy
        rw [List.head?_cons, Option.mem_def] at hy
        have hxt : x = s.this_frame := hlast x (by rwa [Option.mem_def] at hx)
        have hyts : y = ts := by injection hy with h; exact h.symm
        subst hyts; subst hxt
        rw [F.beq_symm]
        exact (Bool.not_eq_true _).mp hbeq
  · push_neg at hf
    refine ⟨?_, ?_⟩
    · intro t ht
      rw [writerStep_out, framesOf_append, framesOf_emittedBy _ _ _ _ hf,
        List.append_nil] at ht
      rw [writerStep_this_frame _ _ _ _ hf]
      exact hlast t ht
    · rw [writerStep_out, framesOf_append, framesOf_emittedBy _ _ _ _ hf, List.append_nil]
      exact hchain

/-- C8: a frame is emitted iff its timestamp differs (Rust `!=`) from the
tracked `this_frame`, which starts at 0 and is updated on emission;
consequently no two consecutive frame records of the output carry Rust-equal
timestamps. -/
theorem frame_idempotence (reference_ll new_reference_ll : LL) :
    (∀ s ts, writerStep reference_ll new_reference_ll s (.Frame ts) =
      if F.beq ts s.this_frame then s
      else { s with this_frame := ts, out := s.out ++ [.Frame ts] })
    ∧ initWState.this_frame = F.val 0
    ∧ (∀ records : List Record,
        List.Chain' (fun a b => F.beq a b = false)
          (framesOf (writerRun reference_ll new_reference_ll records).out)) := by
  refine ⟨writerStep_frame reference_ll new_reference_ll, rfl, ?_⟩
  intro records
  have hinit : FrameInv initWState := by
    constructor
    · intro t ht
      simp [initWState, framesOf] at ht
    · simp [initWState, framesOf]
  exact (writerRun_inv reference_ll new_reference_ll FrameInv
    (frameInv_step reference_ll new_reference_ll) records initWState hinit).2

/-! ### Reference substitution -/

/-- Is this record a `ReferenceLatitude` global property? -/
def isRefLat : Record → Bool
  | .GlobalProperty (.ReferenceLatitude _) => true
  | _ => false

/-- Is this record a `ReferenceLongitude` global property? -/
def isRefLon : Record → Bool
  | .GlobalProperty (.ReferenceLongitude _) => true
  | _ => false

/-- How many `ReferenceLatitude` records does the stream carry? -/
def countRefLat (l : List Record) : Nat := l.countP isRefLat

/-- How many `ReferenceLongitude` records does the stream carry? -/
def countRefLon (l : List Record) : Nat := l.countP isRefLon

theorem emittedBy_countRefLat (reference_ll new_reference_ll : LL) (s : WState) (r : Record) :
    countRefLat (emittedBy reference_ll new_reference_ll s r) = countRefLat [r] := by
  cases r with
  | GlobalProperty gp => cases gp <;> rfl
  | Event e => rfl
  | Frame ts =>
    simp only [emittedBy]
    by_cases h : F.beq ts s.this_frame <;> simp [h, countRefLat, isRefLat]
  | Update u =>
    cases hl : alLookup s.active_entities u.id with
    | none => rw [emittedBy_update_vacant _ _ _ _ hl]; rfl
    | some stored =>
      rw [emittedBy_update_known _ _ _ _ _ hl]
      by_cases hch : (changedProps stored
          (props_map (offsetProps reference_ll new_reference_ll u.props))).isEmpty <;>
        simp [hch, countRefLat, isRefLat]
  | Remove i =>
    cases hl : alLookup s.active_entities i with
    | none => rw [emittedBy_remove_unknown _ _ _ _ hl]; rfl
    | some stored => rw [emittedBy_remove_known _ _ _ _ _ hl]

theorem emittedBy_countRefLon (reference_ll new_reference_ll : LL) (s : WState) (r : Record) :
    countRefLon (emittedBy reference_ll new_reference_ll s r) = countRefLon [r] := by
  cases r with
  | GlobalProperty gp => cases gp <;> rfl
  | Event e => rfl
  | Frame ts =>
    simp only [emittedBy]
    by_cases h : F.beq ts s.this_frame <;> simp [h, countRefLon, isRefLon]
  | Update u =>
    cases hl : alLookup s.active_entities u.id with
    | none => rw [emittedBy_update_vacant _ _ _ _ hl]; rfl
    | some stored =>
      rw [emittedBy_update_known _ _ _ _ _ hl]
      by_cases hch : (changedProps stored
          (props_map (offsetProps reference_ll new_reference_ll u.props))).isEmpty <;>
        simp [hch, countRefLon, isRefLon]
  | Remove i =>
    cases hl : alLookup s.active_entities i with
    | none => rw [emittedBy_remove_unknown _ _ _ _ hl]; rfl
    | some stored => rw [emittedBy_remove_known _ _ _ _ _ hl]

theorem countRefLat_run (reference_ll new_reference_ll : LL) (records : List Record)
    (s : WState) :
    countRefLat (records.foldl (writerStep reference_ll new_reference_ll) s).out =
      countRefLat s.out + countRefLat records := by
  induction records generalizing s with
  | nil => simp [countRefLat]
  | cons r rest ih =>
    rw [List.foldl_cons, ih, writerStep_out]
    have h1 := emittedBy_countRefLat reference_ll new_reference_ll s r
    unfold countRefLat at h1 ⊢
    rw [List.countP_append, h1]
    simp [List.countP_cons]
    ring

theorem countRefLon_run (reference_ll new_reference_ll : LL) (records : List Record)
    (s : WState) :
    countRefLon (records.foldl (writerStep reference_ll new_reference_ll) s).out =
      countRefLon s.out + countRefLon records := by
  induction records generalizing s with
  | nil => simp [countRefLon]
  | cons r rest ih =>
    rw [List.foldl_cons, ih, writerStep_out]
    have h1 := emittedBy_countRefLon reference_ll new_reference_ll s r
    unfold countRefLon at h1 ⊢
    rw [List.countP_append, h1]
    simp [List.countP_cons]
    ring

theorem emittedBy_refLat_mem (reference_ll new_reference_ll : LL) (s : WState) (r : Record)
    (v : F) (h : Record.GlobalProperty (GlobalProperty.ReferenceLatitude v)
        ∈ emittedBy reference_ll new_reference_ll s r) :
    v = new_reference_ll.lat := by
  cases r with
  | GlobalProperty gp => cases gp <;> simpa [emittedBy] using h
  | Event e => simp [emittedBy] at h
  | Frame ts =>
    simp only [emittedBy] at h
    by_cases hb : F.beq ts s.this_frame <;> simp [hb] at h
  | Update u =>
    cases hl : alLookup s.active_entities u.id with
    | none => rw [emittedBy_update_vacant _ _ _ _ hl] at h; simp at h
    | some stored =>
      rw [emittedBy_update_known _ _ _ _ _ hl] at h
      by_cases hch : (changedProps stored
          (props_map (offsetProps reference_ll new_reference_ll u.props))).isEmpty <;>
        simp [hch] at h
  | Remove i =>
    cases hl : alLookup s.active_entities i with
    | none => rw [emittedBy_remove_unknown _ _ _ _ hl] at h; simp at h
    | some stored => rw [emittedBy_remove_known _ _ _ _ _ hl] at h; simp at h

theorem emittedBy_refLon_mem (reference_ll new_reference_ll : LL) (s : WState) (r : Record)
    (v : F) (h : Record.GlobalProperty (GlobalProperty.ReferenceLongitude v)
        ∈ emittedBy reference_ll new_reference_ll s r) :
    v = new_reference_ll.lon := by
  cases r with
  | GlobalProperty gp => cases gp <;> simpa [emittedBy] using h
  | Event e => simp [emittedBy] at h
  | Frame ts =>
    simp only [emittedBy] at h
    by_cases hb : F.beq ts s.this_frame <;> simp [hb] at h
  | Update u =>
    cases hl : alLookup s.active_entities u.id with
    | none => rw [emittedBy_update_vacant _ _ _ _ hl] at h; simp at h
    | some stored =>
      rw [emittedBy_update_known _ _ _ _ _ hl] at h
      by_cases hch : (changedProps stored
          (props_map (offsetProps reference_ll new_reference_ll u.props))).isEmpty <;>
        simp [hch] at h
  | Remove i =>
    cases hl : alLookup s.active_entities i with
    | none => rw [emittedBy_remove_unknown _ _ _ _ hl] at h; simp at h
    | some stored => rw [emittedBy_remove_known _ _ _ _ _ hl] at h; simp at h

theorem refValues_run (reference_ll new_reference_ll : LL) (records : List Record) :
    (∀ v, Record.GlobalProperty (GlobalProperty.ReferenceLatitude v)
        ∈ (writerRun reference_ll new_reference_ll records).out → v = new_reference_ll.lat)
    ∧ (∀ v, Record.GlobalProperty (GlobalProperty.ReferenceLongitude v)
        ∈ (writerRun reference_ll new_reference_ll records).out → v = new_reference_ll.lon) := by
  refine writerRun_inv reference_ll new_reference_ll
    (fun s =>
      (∀ v, Record.GlobalProperty (GlobalProperty.ReferenceLatitude v) ∈ s.out →
        v = new_reference_ll.lat)
      ∧ (∀ v, Record.GlobalProperty (GlobalProperty.ReferenceLongitude v) ∈ s.out →
        v = new_reference_ll.lon))
    ?_ records initWState ⟨fun v hv => by simp [initWState] at hv,
      fun v hv => by simp [initWState] at hv⟩
  intro s r hs
  refine ⟨?_, ?_⟩
  · intro v hv
    rw [writerStep_out] at hv
    rcases List.mem_append.mp hv with h | h
    · exact hs.1 v h
    · exact emittedBy_refLat_mem _ _ _ _ _ h
  · intro v hv
    rw [writerStep_out] at hv
    rcases List.mem_append.mp hv with h | h
    · exact hs.2 v h
    · exact emittedBy_refLon_mem _ _ _ _ _ h

/-- C6 (amended): every `ReferenceLatitude` (resp. `ReferenceLongitude`)
record in the output carries `floor(orig + min)` for its axis, and the output
contains exactly as many reference records per axis as the input — so exactly
one when the input carries exactly one, but none when it carries none. -/
theorem reference_substitution (records : List Record) :
    (countRefLat (pipeline records).out = countRefLat records)
    ∧ (countRefLon (pipeline records).out = countRefLon records)
    ∧ (∀ v, Record.GlobalProperty (GlobalProperty.ReferenceLatitude v) ∈ (pipeline records).out →
        v = (anchors records).2.lat)
    ∧ (∀ v, Record.GlobalProperty (GlobalProperty.ReferenceLongitude v) ∈ (pipeline records).out →
        v = (anchors records).2.lon)
    ∧ ((anchors records).2.lat =
        ((anchors records).1.lat.add (find_min_ll (parse_original_ll records LL.dfl).2).lat).floor)
    ∧ ((anchors records).2.lon =
        ((anchors records).1.lon.add
          (find_min_ll (parse_original_ll records LL.dfl).2).lon).floor) := by
  refine ⟨?_, ?_, (refValues_run _ _ records).1, (refValues_run _ _ records).2, rfl, rfl⟩
  · have h := countRefLat_run (anchors records).1 (anchors records).2 records initWState
    simpa [initWState, countRefLat] using h
  · have h := countRefLon_run (anchors records).1 (anchors records).2 records initWState
    simpa [initWState, countRefLon] using h

/-- C6 is false as stated: a valid input with no reference records (the
format defaults them to 0) produces an output with no reference records, not
exactly one. -/
theorem reference_substitution_counterexample :
    countRefLat (pipeline [Record.GlobalProperty (GlobalProperty.otherGlobal 0 "FileType"),
        Record.Frame (F.val 1)]).out = 0
    ∧ countRefLon (pipeline [Record.GlobalProperty (GlobalProperty.otherGlobal 0 "FileType"),
        Record.Frame (F.val 1)]).out = 0 := by
  constructor <;> decide

/-- Witness for `reference_substitution`: the single emitted reference
latitude of a concrete header equals the recomputed anchor. -/
theorem reference_substitution_witness :
    F.val 10 = (anchors [Record.GlobalProperty (GlobalProperty.ReferenceLatitude (F.val 10)),
        Record.GlobalProperty (GlobalProperty.ReferenceLongitude (F.val 20))]).2.lat :=
  (reference_substitution
      [Record.GlobalProperty (GlobalProperty.ReferenceLatitude (F.val 10)),
       Record.GlobalProperty (GlobalProperty.ReferenceLongitude (F.val 20))]).2.2.1
    (F.val 10) (by decide)

/-! ### Suppression of unchanged updates -/

/-- Is this update-map entry unchanged relative to the stored state: its
non-`T` value equals the stored value; for `T`, the coordinate delta against
the stored coordinates is all-blank? -/
def suppressibleEntry (stored : PropertyMap) (tp : Nat × Property) : Bool :=
  match tp.2 with
  | .T cc =>
    match alLookup stored tp.1 with
    | some (.T pc) => Coords.delta pc cc == Coords.dfl
    | _ => false
  | p => alLookup stored tp.1 == some p

/-- Is the record an `Update`? -/
def isUpdateRec : Record → Bool
  | .Update _ => true
  | _ => false

theorem changedStep_skip {stored : PropertyMap} {tp : Nat × Property}
    (h : suppressibleEntry stored tp = true) (acc : PropertyMap) :
    changedStep stored acc tp = acc := by
  unfold changedStep
  unfold suppressibleEntry at h
  cases hp : tp.2 with
  | T cc =>
    rw [hp] at h
    cases hl : alLookup stored tp.1 with
    | none => rw [hl] at h; cases h
    | some prev =>
      rw [hl] at h
      cases prev with
      | T pc =>
        have hd : Coords.delta pc cc = Coords.dfl := eq_of_beq h
        simp [hd, coordsEqR, optEqR, Coords.dfl]
      | other t str => cases h
  | other t str =>
    rw [hp] at h
    have hl : alLookup stored tp.1 = some (.other t str) := eq_of_beq h
    rw [hl]
    simp [propEqR]

theorem changedProps_eq_nil {stored pm : PropertyMap}
    (h : pm.all (suppressibleEntry stored) = true) : changedProps stored pm = [] := by
  unfold changedProps
  have haux : ∀ (l : List (Nat × Property)),
      (∀ tp ∈ l, suppressibleEntry stored tp = true) →
      ∀ acc, l.foldl (changedStep stored) acc = acc := by
    intro l
    induction l with
    | nil => exact fun _ _ => rfl
    | cons tp rest ih =>
      intro hl acc
      rw [List.foldl_cons, changedStep_skip (hl tp (List.mem_cons_self _ _))]
      exact ih (fun q hq => hl q (List.mem_cons_of_mem _ hq)) acc
  exact haux pm (List.all_eq_true.mp h) []

/-- C5: an update for a known entity all of whose properties are unchanged
(each non-`T` property equals the stored value, the `T` delta against the
stored coordinates is all-blank) emits nothing and leaves the writer state —
including the entity's stored state — untouched.  In particular, of two
consecutive identical updates only the first is written. -/
theorem unchanged_update_suppressed :
    (∀ reference_ll new_reference_ll s u stored,
      alLookup s.active_entities u.id = some stored →
      (props_map (offsetProps reference_ll new_reference_ll u.props)).all
        (suppressibleEntry stored) = true →
      writerStep reference_ll new_reference_ll s (.Update u) = s)
    ∧ ((pipeline
        [Record.GlobalProperty (GlobalProperty.ReferenceLatitude (F.val 0)),
         Record.GlobalProperty (GlobalProperty.ReferenceLongitude (F.val 0)),
         Record.Frame (F.val 1),
         Record.Update ⟨1, [Property.T ⟨some (F.val (mkRat 1 2)), some (F.val (mkRat 1 2)), none⟩]⟩,
         Record.Update ⟨1, [Property.T ⟨some (F.val (mkRat 1 2)), some (F.val (mkRat 1 2)),
           none⟩]⟩]).out.countP isUpdateRec = 1) := by
  constructor
  · intro reference_ll new_reference_ll s u stored hstored hsup
    rw [writerStep_update_known _ _ _ _ _ hstored, changedProps_eq_nil hsup]
    simp
  · decide

/-- Witness for `unchanged_update_suppressed`: a concrete unchanged update
against a concrete state is a no-op. -/
theorem unchanged_update_suppressed_witness :
    writerStep LL.dfl LL.dfl
      ⟨F.val 0, [(1, [(0, Property.T ⟨some (F.val 1), none, none⟩)])], []⟩
      (.Update ⟨1, [Property.T ⟨some (F.val 1), none, none⟩]⟩) =
      ⟨F.val 0, [(1, [(0, Property.T ⟨some (F.val 1), none, none⟩)])], []⟩ :=
  unchanged_update_suppressed.1 LL.dfl LL.dfl
    ⟨F.val 0, [(1, [(0, Property.T ⟨some (F.val 1), none, none⟩)])], []⟩
    ⟨1, [Property.T ⟨some (F.val 1), none, none⟩]⟩
    [(0, Property.T ⟨some (F.val 1), none, none⟩)]
    (by decide) (by decide)

/-! ### Per-entity history: relevant events -/

/-- A relevant event for one entity in the output: an update or a removal. -/
inductive Tok where
  | U : Tok
  | R : Tok
  deriving DecidableEq

/-- What one record contributes to entity `i`'s relevant history. -/
def tokOf (i : Nat) : Record → Option Tok
  | .Update u => if u.id = i then some Tok.U else none
  | .Remove j => if j = i then some Tok.R else none
  | _ => none

/-- The relevant history of entity `i` in a stream. -/
def toksFor (i : Nat) (l : List Record) : List Tok :=
  l.filterMap (tokOf i)

/-- Scan a relevant word: the flag says whether the entity is active; a
removal is valid only when the flag is set. -/
def toksOk : List Tok → Bool → Bool
  | [], _ => true
  | Tok.U :: rest, _ => toksOk rest true
  | Tok.R :: rest, flag => flag && toksOk rest false

/-- The activity flag after a relevant word. -/
def runFlag : List Tok → Bool → Bool
  | [], f => f
  | Tok.U :: rest, _ => runFlag rest true
  | Tok.R :: rest, _ => runFlag rest false

theorem toksOk_append (w1 w2 : List Tok) (f : Bool) :
    toksOk (w1 ++ w2) f = (toksOk w1 f && toksOk w2 (runFlag w1 f)) := by
  induction w1 generalizing f with
  | nil => simp [toksOk, runFlag]
  | cons t rest ih => cases t <;> simp [toksOk, runFlag, ih, Bool.and_assoc]

theorem runFlag_append (w1 w2 : List Tok) (f : Bool) :
    runFlag (w1 ++ w2) f = runFlag w2 (runFlag w1 f) := by
  induction w1 generalizing f with
  | nil => rfl
  | cons t rest ih => cases t <;> simp [runFlag, ih]

theorem runFlag_true_last (w : List Tok) (h : runFlag w false = true) :
    ∃ w', w = w' ++ [Tok.U] := by
  induction w using List.reverseRecOn with
  | nil => simp [runFlag] at h
  | append_singleton w' t ih =>
    cases t with
    | U => exact ⟨w', rfl⟩
    | R => rw [runFlag_append] at h; simp [runFlag] at h

theorem filterMap_eq_concat {α β : Type} (g : α → Option β) (l : List α) (w : List β) (t : β)
    (h : l.filterMap g = w ++ [t]) :
    ∃ l1 x l2, l = l1 ++ x :: l2 ∧ g x = some t ∧ l2.filterMap g = [] := by
  induction l using List.reverseRecOn generalizing w with
  | nil => simp at h
  | append_singleton l' x ih =>
    rw [List.filterMap_append] at h
    cases hx : g x with
    | none =>
      simp only [List.filterMap_cons, List.filterMap_nil, hx, List.append_nil] at h
      obtain ⟨l1, y, l2, hsplit, hy, hnil⟩ := ih w h
      exact ⟨l1, y, l2 ++ [x], by rw [hsplit]; simp, hy,
        by rw [List.filterMap_append, hnil]; simp [hx, List.filterMap_cons]⟩
    | some b =>
      simp only [List.filterMap_cons, List.filterMap_nil, hx] at h
      have hb : b = t := by
        have hlast := congrArg List.getLast? h
        rw [List.getLast?_concat, List.getLast?_concat] at hlast
        injection hlast
      exact ⟨l', x, [], by simp, by rw [hx, hb], by simp⟩

theorem toksFor_append (i : Nat) (l1 l2 : List Record) :
    toksFor i (l1 ++ l2) = toksFor i l1 ++ toksFor i l2 :=
  List.filterMap_append l1 l2 _

/-! ### Property map well-formedness -/

/-- Well-formed property map: each key is its value's discriminant and keys
are unique. -/
def pmWF (m : PropertyMap) : Prop :=
  (∀ tp ∈ m, tp.1 = tagOf tp.2) ∧ (m.map Prod.fst).Nodup

theorem alInsert_map_fst_mem {α : Type} (m : List (Nat × α)) (k : Nat) (v : α) (j : Nat) :
    j ∈ (alInsert m k v).map Prod.fst ↔ j ∈ m.map Prod.fst ∨ j = k := by
  induction m with
  | nil => simp [alInsert]
  | cons e rest ih =>
    by_cases h : e.1 = k
    · rw [show alInsert (e :: rest) k v = (k, v) :: rest from by
        obtain ⟨a, b⟩ := e; simp_all [alInsert]]
      simp [h]
      tauto
    · rw [show alInsert (e :: rest) k v = e :: alInsert rest k v from by
        obtain ⟨a, b⟩ := e; simp_all [alInsert]]
      simp [ih]
      tauto

theorem mem_alInsert {α : Type} (m : List (Nat × α)) (k : Nat) (v : α) (e : Nat × α)
    (h : e ∈ alInsert m k v) : e = (k, v) ∨ e ∈ m := by
  induction m with
  | nil => simpa [alInsert] using h
  | cons e' rest ih =>
    by_cases hk : e'.1 = k
    · rw [show alInsert (e' :: rest) k v = (k, v) :: rest from by
        obtain ⟨a, b⟩ := e'; simp_all [alInsert]] at h
      rcases List.mem_cons.mp h with h | h
      · exact Or.inl h
      · exact Or.inr (List.mem_cons_of_mem _ h)
    · rw [show alInsert (e' :: rest) k v = e' :: alInsert rest k v from by
        obtain ⟨a, b⟩ := e'; simp_all [alInsert]] at h
      rcases List.mem_cons.mp h with h | h
      · exact Or.inr (h ▸ List.mem_cons_self _ _)
      · rcases ih h with h' | h'
        · exact Or.inl h'
        · exact Or.inr (List.mem_cons_of_mem _ h')

theorem alInsert_nodup_keys {α : Type} (m : List (Nat × α)) (k : Nat) (v : α)
    (h : (m.map Prod.fst).Nodup) : ((alInsert m k v).map Prod.fst).Nodup := by
  induction m with
  | nil => simp [alInsert]
  | cons e rest ih =>
    rw [List.map_cons] at h
    obtain ⟨hnotin, hrest⟩ := List.nodup_cons.mp h
    by_cases hk : e.1 = k
    · rw [show alInsert (e :: rest) k v = (k, v) :: rest from by
        obtain ⟨a, b⟩ := e; simp_all [alInsert]]
      rw [List.map_cons]
      exact List.nodup_cons.mpr ⟨hk ▸ hnotin, hrest⟩
    · rw [show alInsert (e :: rest) k v = e :: alInsert rest k v from by
        obtain ⟨a, b⟩ := e; simp_all [alInsert]]
      rw [List.map_cons]
      refine List.nodup_cons.mpr ⟨?_, ih hrest⟩
      intro hmem
      rcases (alInsert_map_fst_mem rest k v e.1).mp hmem with h' | h'
      · exact hnotin h'
      · exact hk h'

theorem alInsert_pmWF {m : PropertyMap} (hm : pmWF m) {k : Nat} {v : Property}
    (hk : k = tagOf v) : pmWF (alInsert m k v) := by
  obtain ⟨htags, hnodup⟩ := hm
  refine ⟨?_, alInsert_nodup_keys m k v hnodup⟩
  intro tp htp
  rcases mem_alInsert m k v tp htp with h | h
  · rw [h]; exact hk
  · exact htags tp h

theorem props_map_wf (props : List Property) : pmWF (props_map props) := by
  unfold props_map
  have haux : ∀ (l : List Property) (acc : PropertyMap), pmWF acc →
      pmWF (l.foldl (fun m p => alInsert m (tagOf p) p) acc) := by
    intro l
    induction l with
    | nil => exact fun _ h => h
    | cons p rest ih =>
      intro acc hacc
      rw [List.foldl_cons]
      exact ih _ (alInsert_pmWF hacc rfl)
  exact haux props [] ⟨by simp, by simp⟩

theorem changedStep_cases (stored acc : PropertyMap) (tp : Nat × Property) :
    changedStep stored acc tp = acc ∨
      (∃ cc pc, tp.2 = .T cc ∧
        changedStep stored acc tp = alInsert acc tp.1 (.T (Coords.delta pc cc))) ∨
      changedStep stored acc tp = alInsert acc tp.1 tp.2 := by
  unfold changedStep
  cases alLookup stored tp.1 with
  | none => right; right; rfl
  | some prev =>
    cases prev with
    | T pc =>
      cases htp : tp.2 with
      | T cc =>
        by_cases hd : coordsEqR (Coords.delta pc cc) Coords.dfl
        · left; simp [hd]
        · right; left
          exact ⟨cc, pc, rfl, by simp [hd]⟩
      | other t str => left; rfl
    | other t str =>
      by_cases he : propEqR (.other t str) tp.2
      · left; simp [he]
      · right; right; simp [he]

theorem changedProps_wf (stored pm : PropertyMap) (hpm : ∀ tp ∈ pm, tp.1 = tagOf tp.2) :
    pmWF (changedProps stored pm) := by
  unfold changedProps
  have haux : ∀ (l : List (Nat × Property)), (∀ tp ∈ l, tp.1 = tagOf tp.2) →
      ∀ acc, pmWF acc → pmWF (l.foldl (changedStep stored) acc) := by
    intro l
    induction l with
    | nil => exact fun _ _ h => h
    | cons tp rest ih =>
      intro hl acc hacc
      rw [List.foldl_cons]
      refine ih (fun q hq => hl q (List.mem_cons_of_mem _ hq)) _ ?_
      have htp := hl tp (List.mem_cons_self _ _)
      rcases changedStep_cases stored acc tp with h | ⟨cc, pc, hcc, h⟩ | h
      · rw [h]; exact hacc
      · rw [h]
        refine alInsert_pmWF hacc ?_
        rw [htp, hcc]
        rfl
      · rw [h]
        exact alInsert_pmWF hacc htp
  exact haux pm hpm [] ⟨by simp, by simp⟩

theorem pmExtend_wf (m ch : PropertyMap) (hm : pmWF m)
    (hch : ∀ tp ∈ ch, tp.1 = tagOf tp.2) : pmWF (pmExtend m ch) := by
  unfold pmExtend
  have haux : ∀ (l : List (Nat × Property)), (∀ tp ∈ l, tp.1 = tagOf tp.2) →
      ∀ acc, pmWF acc → pmWF (l.foldl (fun acc tp => alInsert acc tp.1 tp.2) acc) := by
    intro l
    induction l with
    | nil => exact fun _ _ h => h
    | cons tp rest ih =>
      intro hl acc hacc
      rw [List.foldl_cons]
      exact ih (fun q hq => hl q (List.mem_cons_of_mem _ hq)) _
        (alInsert_pmWF hacc (hl tp (List.mem_cons_self _ _)))
  exact haux ch hch m hm

theorem alLookup_mem_keys {α : Type} (m : List (Nat × α)) (t : Nat) (v : α)
    (h : alLookup m t = some v) : t ∈ m.map Prod.fst := by
  induction m with
  | nil => cases h
  | cons e rest ih =>
    by_cases ht : e.1 = t
    · simp [List.map_cons, ht]
    · rw [show alLookup (e :: rest) t = alLookup rest t from by
        obtain ⟨a, b⟩ := e; simp_all [alLookup]] at h
      exact List.mem_cons_of_mem _ (ih h)

theorem alLookup_pmExtend (ch : PropertyMap) :
    ∀ (m : PropertyMap), (ch.map Prod.fst).Nodup → ∀ t,
    alLookup (pmExtend m ch) t =
      match alLookup ch t with
      | some v => some v
      | none => alLookup m t := by
  induction ch with
  | nil => intro m _ t; rfl
  | cons e rest ih =>
    intro m hch t
    obtain ⟨k, v⟩ := e
    rw [List.map_cons] at hch
    obtain ⟨hknotin, hrest⟩ := List.nodup_cons.mp hch
    have hstep : pmExtend m ((k, v) :: rest) = pmExtend (alInsert m k v) rest := rfl
    rw [hstep, ih (alInsert m k v) hrest t]
    by_cases hk : k = t
    · subst hk
      have hnone : alLookup rest k = none := by
        cases hr : alLookup rest k with
        | none => rfl
        | some w => exact absurd (alLookup_mem_keys rest k w hr) hknotin
      rw [hnone]
      simp [alLookup, alLookup_insert_self]
    · cases hr : alLookup rest t with
      | none =>
        rw [alLookup_insert_ne m k t v (Ne.symm hk)]
        simp [alLookup, hk, hr]
      | some w => simp [alLookup, hk, hr]

theorem find_values_eq_lookup (m : PropertyMap) (hm : ∀ tp ∈ m, tp.1 = tagOf tp.2) (t : Nat) :
    (m.map Prod.snd).find? (fun p => tagOf p == t) = alLookup m t := by
  induction m with
  | nil => rfl
  | cons e rest ih =>
    obtain ⟨k, v⟩ := e
    have hk : k = tagOf v := hm (k, v) (List.mem_cons_self _ _)
    have hrest := fun q hq => hm q (List.mem_cons_of_mem _ hq)
    rw [List.map_cons]
    by_cases ht : tagOf v = t
    · rw [List.find?_cons_of_pos _ (by simp [ht])]
      have : alLookup ((k, v) :: rest) t = some v := by simp [alLookup, hk, ht]
      rw [this]
    · rw [List.find?_cons_of_neg _ (by simp [ht])]
      have : alLookup ((k, v) :: rest) t = alLookup rest t := by
        simp [alLookup, hk, ht]
      rw [this, ih hrest]

/-! ### The most recently emitted value per entity and tag -/

/-- Scan a reversed output stream for the most recent emitted value of one
property tag of one entity, stopping at that entity's removal. -/
def lastEmittedAux (i tag : Nat) : List Record → Option Property
  | [] => none
  | .Remove j :: rest => if j = i then none else lastEmittedAux i tag rest
  | .Update u :: rest =>
    if u.id = i then
      match u.props.find? (fun p => tagOf p == tag) with
      | some p => some p
      | none => lastEmittedAux i tag rest
    else lastEmittedAux i tag rest
  | _ :: rest => lastEmittedAux i tag rest

/-- The property value for `tag` carried by the most recent emitted `Update`
for entity `i` after its last removal, if any. -/
def lastEmitted (out : List Record) (i tag : Nat) : Option Property :=
  lastEmittedAux i tag out.reverse

theorem lastEmitted_concat (out : List Record) (r : Record) (i tag : Nat) :
    lastEmitted (out ++ [r]) i tag = lastEmittedAux i tag (r :: out.reverse) := by
  unfold lastEmitted
  rw [List.reverse_append]
  rfl

theorem lastEmitted_concat_gp (out : List Record) (gp : GlobalProperty) (i tag : Nat) :
    lastEmitted (out ++ [.GlobalProperty gp]) i tag = lastEmitted out i tag := by
  rw [lastEmitted_concat]; rfl

theorem lastEmitted_concat_event (out : List Record) (e : String) (i tag : Nat) :
    lastEmitted (out ++ [.Event e]) i tag = lastEmitted out i tag := by
  rw [lastEmitted_concat]; rfl

theorem lastEmitted_concat_frame (out : List Record) (ts : F) (i tag : Nat) :
    lastEmitted (out ++ [.Frame ts]) i tag = lastEmitted out i tag := by
  rw [lastEmitted_concat]; rfl

theorem lastEmitted_concat_update_ne (out : List Record) (uid : Nat) (props : List Property)
    (i tag : Nat) (h : uid ≠ i) :
    lastEmitted (out ++ [.Update ⟨uid, props⟩]) i tag = lastEmitted out i tag := by
  rw [lastEmitted_concat]
  unfold lastEmittedAux
  simp only [h, if_false, ite_false, if_neg]
  rfl

theorem lastEmitted_concat_remove_ne (out : List Record) (j i tag : Nat) (h : j ≠ i) :
    lastEmitted (out ++ [.Remove j]) i tag = lastEmitted out i tag := by
  rw [lastEmitted_concat]
  unfold lastEmittedAux
  rw [if_neg h]
  rfl

theorem lastEmitted_concat_remove_self (out : List Record) (i tag : Nat) :
    lastEmitted (out ++ [.Remove i]) i tag = none := by
  rw [lastEmitted_concat]
  unfold lastEmittedAux
  rw [if_pos rfl]

theorem lastEmitted_concat_update_self (out : List Record) (uid : Nat) (props : List Property)
    (i tag : Nat) (h : uid = i) :
    lastEmitted (out ++ [.Update ⟨uid, props⟩]) i tag =
      match props.find? (fun p => tagOf p == tag) with
      | some p => some p
      | none => lastEmitted out i tag := by
  rw [lastEmitted_concat]
  unfold lastEmittedAux
  simp only [h, if_pos, if_true, ite_true]
  rfl

theorem toksFor_gp (i : Nat) (gp : GlobalProperty) :
    toksFor i [.GlobalProperty gp] = [] := rfl

theorem toksFor_event (i : Nat) (e : String) : toksFor i [.Event e] = [] := rfl

theorem toksFor_frame (i : Nat) (ts : F) : toksFor i [.Frame ts] = [] := rfl

theorem toksFor_update_self (i uid : Nat) (props : List Property) (h : uid = i) :
    toksFor i [.Update ⟨uid, props⟩] = [Tok.U] := by
  simp [toksFor, tokOf, h]

theorem toksFor_update_ne (i uid : Nat) (props : List Property) (h : uid ≠ i) :
    toksFor i [.Update ⟨uid, props⟩] = [] := by
  simp [toksFor, tokOf, h]

theorem toksFor_remove_self (i : Nat) : toksFor i [.Remove i] = [Tok.R] := by
  simp [toksFor, tokOf]

theorem toksFor_remove_ne (i j : Nat) (h : j ≠ i) : toksFor i [.Remove j] = [] := by
  simp [toksFor, tokOf, h]

theorem lastEmitted_of_flag_false (out : List Record) (i tag : Nat)
    (h : runFlag (toksFor i out) false = false) : lastEmitted out i tag = none := by
  induction out using List.reverseRecOn with
  | nil => rfl
  | append_singleton out' r ih =>
    rw [toksFor_append, runFlag_append] at h
    cases r with
    | GlobalProperty gp =>
      rw [lastEmitted_concat_gp]
      rw [toksFor_gp] at h
      exact ih h
    | Event e =>
      rw [lastEmitted_concat_event]
      rw [toksFor_event] at h
      exact ih h
    | Frame ts =>
      rw [lastEmitted_concat_frame]
      rw [toksFor_frame] at h
      exact ih h
    | Update u =>
      obtain ⟨uid, uprops⟩ := u
      by_cases hu : uid = i
      · rw [toksFor_update_self i uid uprops hu] at h
        simp [runFlag] at h
      · rw [lastEmitted_concat_update_ne _ _ _ _ _ hu]
        rw [toksFor_update_ne i uid uprops hu] at h
        exact ih h
    | Remove j =>
      by_cases hj : j = i
      · subst hj
        exact lastEmitted_concat_remove_self out' j tag
      · rw [lastEmitted_concat_remove_ne _ _ _ _ hj]
        rw [toksFor_remove_ne i j hj] at h
        exact ih h

/-! ### The joint history invariant of the writer loop -/

/-- Per entity: (1) the entity is active iff its relevant output history ends
in an update; (2) every removal was emitted while active; (3) the stored
property map is well-formed and holds, per tag, exactly the most recently
emitted value for that tag. -/
def WInv (s : WState) : Prop :=
  ∀ i : Nat,
    ((alLookup s.active_entities i).isSome = runFlag (toksFor i s.out) false)
    ∧ (toksOk (toksFor i s.out) false = true)
    ∧ (∀ m, alLookup s.active_entities i = some m →
        pmWF m ∧ ∀ tag, alLookup m tag = lastEmitted s.out i tag)

theorem wInv_init : WInv initWState := by
  intro i
  exact ⟨rfl, rfl, fun m hm => by cases hm⟩

theorem wInv_irrelevant_append (s s' : WState) (l : List Record)
    (hactive : s'.active_entities = s.active_entities)
    (hout : s'.out = s.out ++ l)
    (hl : ∀ i, toksFor i l = [])
    (hle : ∀ i tag, lastEmitted (s.out ++ l) i tag = lastEmitted s.out i tag)
    (h : WInv s) : WInv s' := by
  intro i
  obtain ⟨h1, h2, h3⟩ := h i
  rw [hactive, hout, toksFor_append, hl i, List.append_nil]
  exact ⟨h1, h2, fun m hm =>
    ⟨(h3 m hm).1, fun tag => by rw [hle i tag]; exact (h3 m hm).2 tag⟩⟩

theorem wInv_step (reference_ll new_reference_ll : LL) (s : WState) (r : Record)
    (h : WInv s) : WInv (writerStep reference_ll new_reference_ll s r) := by
  cases r with
  | GlobalProperty gp =>
    cases gp with
    | ReferenceLatitude v =>
      exact wInv_irrelevant_append s _ _ rfl rfl (fun i => toksFor_gp i _)
        (fun i tag => lastEmitted_concat_gp _ _ i tag) h
    | ReferenceLongitude v =>
      exact wInv_irrelevant_append s _ _ rfl rfl (fun i => toksFor_gp i _)
        (fun i tag => lastEmitted_concat_gp _ _ i tag) h
    | otherGlobal t str =>
      exact wInv_irrelevant_append s _ _ rfl rfl (fun i => toksFor_gp i _)
        (fun i tag => lastEmitted_concat_gp _ _ i tag) h
  | Event e =>
    exact wInv_irrelevant_append s _ _ rfl rfl (fun i => toksFor_event i _)
      (fun i tag => lastEmitted_concat_event _ _ i tag) h
  | Frame ts =>
    rw [writerStep_frame]
    by_cases hb : F.beq ts s.this_frame
    · rw [if_pos hb]; exact h
    · rw [if_neg (by simpa using hb)]
      exact wInv_irrelevant_append s _ _ rfl rfl (fun i => toksFor_frame i _)
        (fun i tag => lastEmitted_concat_frame _ _ i tag) h
  | Update u =>
    cases hl : alLookup s.active_entities u.id with
    | none =>
      rw [writerStep_update_vacant _ _ _ _ hl]
      intro i
      obtain ⟨h1, h2, h3⟩ := h i
      by_cases hi : i = u.id
      · subst hi
        refine ⟨?_, ?_, ?_⟩
        · rw [alLookup_insert_self, toksFor_append, toksFor_update_self _ _ _ rfl,
            runFlag_append]
          simp [runFlag]
        · rw [toksFor_append, toksFor_update_self _ _ _ rfl, toksOk_append, h2]
          simp [toksOk]
        · intro m hm
          rw [alLookup_insert_self] at hm
          have hmp : m = props_map (offsetProps reference_ll new_reference_ll u.props) := by
            injection hm with h'
            exact h'.symm
          subst hmp
          refine ⟨props_map_wf _, ?_⟩
          intro tag
          rw [lastEmitted_concat_update_self _ _ _ _ _ rfl]
          rw [find_values_eq_lookup _ (props_map_wf _).1 tag]
          cases hpk : alLookup (props_map (offsetProps reference_ll new_reference_ll u.props))
              tag with
          | some p => rfl
          | none =>
            rw [hl] at h1
            exact (lastEmitted_of_flag_false s.out u.id tag h1.symm).symm
      · refine ⟨?_, ?_, ?_⟩
        · rw [alLookup_insert_ne _ _ _ _ hi, toksFor_append,
            toksFor_update_ne i u.id _ (fun c => hi c.symm), List.append_nil]
          exact h1
        · rw [toksFor_append, toksFor_update_ne i u.id _ (fun c => hi c.symm),
            List.append_nil]
          exact h2
        · intro m hm
          rw [alLookup_insert_ne _ _ _ _ hi] at hm
          obtain ⟨hwf, hle⟩ := h3 m hm
          exact ⟨hwf, fun tag => by
            rw [lastEmitted_concat_update_ne _ u.id _ _ _ (fun c => hi c.symm)]
            exact hle tag⟩
    | some stored =>
      rw [writerStep_update_known _ _ _ _ _ hl]
      by_cases hch : (changedProps stored
          (props_map (offsetProps reference_ll new_reference_ll u.props))).isEmpty
      · rw [if_pos (by simpa using hch)]; exact h
      · rw [if_neg (by simpa using hch)]
        intro i
        obtain ⟨h1, h2, h3⟩ := h i
        by_cases hi : i = u.id
        · subst hi
          obtain ⟨hstoredwf, hstoredle⟩ := h3 stored hl
          have hchwf : pmWF (changedProps stored
              (props_map (offsetProps reference_ll new_reference_ll u.props))) :=
            changedProps_wf stored _ (props_map_wf _).1
          refine ⟨?_, ?_, ?_⟩
          · rw [alLookup_insert_self, toksFor_append, toksFor_update_self _ _ _ rfl,
              runFlag_append]
            simp [runFlag]
          · rw [toksFor_append, toksFor_update_self _ _ _ rfl, toksOk_append, h2]
            simp [toksOk]
          · intro m hm
            rw [alLookup_insert_self] at hm
            have hmp : m = pmExtend stored (changedProps stored
                (props_map (offsetProps reference_ll new_reference_ll u.props))) := by
              injection hm with h'
              exact h'.symm
            subst hmp
            refine ⟨pmExtend_wf _ _ hstoredwf hchwf.1, ?_⟩
            intro tag
            rw [lastEmitted_concat_update_self _ _ _ _ _ rfl]
            rw [find_values_eq_lookup _ hchwf.1 tag]
            rw [alLookup_pmExtend _ _ hchwf.2 tag]
            cases hck : alLookup (changedProps stored
                (props_map (offsetProps reference_ll new_reference_ll u.props))) tag with
            | some p => rfl
            | none => exact hstoredle tag
        · refine ⟨?_, ?_, ?_⟩
          · rw [alLookup_insert_ne _ _ _ _ hi, toksFor_append,
              toksFor_update_ne i u.id _ (fun c => hi c.symm), List.append_nil]
            exact h1
          · rw [toksFor_append, toksFor_update_ne i u.id _ (fun c => hi c.symm),
              List.append_nil]
            exact h2
          · intro m hm
            rw [alLookup_insert_ne _ _ _ _ hi] at hm
            obtain ⟨hwf, hle⟩ := h3 m hm
            exact ⟨hwf, fun tag => by
              rw [lastEmitted_concat_update_ne _ u.id _ _ _ (fun c => hi c.symm)]
              exact hle tag⟩
  | Remove j =>
    cases hl : alLookup s.active_entities j with
    | none => rw [writerStep_remove_unknown _ _ _ _ hl]; exact h
    | some stored =>
      rw [writerStep_remove_known _ _ _ _ _ hl]
      intro i
      obtain ⟨h1, h2, h3⟩ := h i
      by_cases hi : i = j
      · subst hi
        refine ⟨?_, ?_, ?_⟩
        · rw [alLookup_remove_self, toksFor_append, toksFor_remove_self, runFlag_append]
          simp [runFlag]
        · rw [toksFor_append, toksFor_remove_self, toksOk_append, h2]
          rw [hl] at h1
          simp [toksOk, ← h1]
        · intro m hm
          rw [alLookup_remove_self] at hm
          cases hm
      · refine ⟨?_, ?_, ?_⟩
        · rw [alLookup_remove_ne _ _ _ hi, toksFor_append,
            toksFor_remove_ne i j (fun c => hi c.symm), List.append_nil]
          exact h1
        · rw [toksFor_append, toksFor_remove_ne i j (fun c => hi c.symm), List.append_nil]
          exact h2
        · intro m hm
          rw [alLookup_remove_ne _ _ _ hi] at hm
          obtain ⟨hwf, hle⟩ := h3 m hm
          exact ⟨hwf, fun tag => by
            rw [lastEmitted_concat_remove_ne _ _ _ _ (fun c => hi c.symm)]
            exact hle tag⟩

theorem wInv_run (reference_ll new_reference_ll : LL) (records : List Record) :
    WInv (writerRun reference_ll new_reference_ll records) :=
  writerRun_inv reference_ll new_reference_ll WInv
    (wInv_step reference_ll new_reference_ll) records initWState wInv_init

/-- C2 is false as stated: after two updates for entity 1 (the second
changing only the latitude), the stored `T` coordinates are the emitted
delta — `longitude = none` — although both updates provided a longitude. -/
theorem stored_coords_counterexample :
    alLookup (pipeline
      [Record.GlobalProperty (GlobalProperty.ReferenceLatitude (F.val (mkRat 1 2))),
       Record.GlobalProperty (GlobalProperty.ReferenceLongitude (F.val (mkRat 1 2))),
       Record.Frame (F.val 1),
       Record.Update ⟨1, [Property.T ⟨some (F.val 1), some (F.val 1), none⟩]⟩,
       Record.Update ⟨1, [Property.T ⟨some (F.val 2), some (F.val 1), none⟩]⟩]).active_entities
      1 = some [(0, Property.T ⟨some (F.val (mkRat 3 2)), none, none⟩)] := by
  decide

/-- C2 (amended): for every entity and tag, the stored property value equals
the value carried for that tag by the most recent emitted update for that
entity since its last removal — which for the `T` tag is the emitted delta,
not the accumulated absolute position. -/
theorem stored_eq_last_emitted (reference_ll new_reference_ll : LL) (records : List Record)
    (i tag : Nat) (m : PropertyMap)
    (h : alLookup (writerRun reference_ll new_reference_ll records).active_entities i = some m) :
    alLookup m tag = lastEmitted (writerRun reference_ll new_reference_ll records).out i tag :=
  ((wInv_run reference_ll new_reference_ll records i).2.2 m h).2 tag

/-- Witness for `stored_eq_last_emitted` at a concrete run. -/
theorem stored_eq_last_emitted_witness :
    alLookup [(0, Property.T ⟨some (F.val 1), none, none⟩)] 0 =
      lastEmitted (writerRun LL.dfl LL.dfl
        [Record.Update ⟨1, [Property.T ⟨some (F.val 1), none, none⟩]⟩]).out 1 0 :=
  stored_eq_last_emitted LL.dfl LL.dfl
    [Record.Update ⟨1, [Property.T ⟨some (F.val 1), none, none⟩]⟩] 1 0
    [(0, Property.T ⟨some (F.val 1), none, none⟩)] (by decide)

/-- C9: a removal is emitted iff the id is currently tracked (then its entry
is removed; otherwise it is silently dropped); consequently every `Remove i`
in the output is preceded by an `Update` with that id, with no intervening
`Remove i`. -/
theorem remove_validity (reference_ll new_reference_ll : LL) :
    (∀ s i, writerStep reference_ll new_reference_ll s (.Remove i) =
      (if (alLookup s.active_entities i).isSome then
        { s with active_entities := alRemove s.active_entities i, out := s.out ++ [.Remove i] }
      else s))
    ∧ (∀ records i a b,
        (writerRun reference_ll new_reference_ll records).out = a ++ .Remove i :: b →
        ∃ a1 u a2, a = a1 ++ Record.Update u :: a2 ∧ u.id = i ∧ Record.Remove i ∉ a2) := by
  constructor
  · intro s i
    cases hl : alLookup s.active_entities i with
    | none => rw [writerStep_remove_unknown _ _ _ _ hl]; simp
    | some stored => rw [writerStep_remove_known _ _ _ _ _ hl]; simp
  · intro records i a b hout
    have hok := (wInv_run reference_ll new_reference_ll records i).2.1
    rw [hout] at hok
    have hsplit : toksFor i (a ++ Record.Remove i :: b) =
        toksFor i a ++ Tok.R :: toksFor i b := by
      rw [toksFor_append]
      congr 1
      simp [toksFor, List.filterMap_cons, tokOf]
    rw [hsplit, toksOk_append] at hok
    have hflag : runFlag (toksFor i a) false = true := by
      have hok2 := (Bool.and_eq_true_iff.mp hok).2
      have hok3 : (runFlag (toksFor i a) false && toksOk (toksFor i b) false) = true := hok2
      exact (Bool.and_eq_true_iff.mp hok3).1
    obtain ⟨w', hw⟩ := runFlag_true_last _ hflag
    obtain ⟨a1, x, a2, hasplit, hx, hnil⟩ := filterMap_eq_concat (tokOf i) a w' Tok.U hw
    have hxu : ∃ u : Update, x = Record.Update u ∧ u.id = i := by
      cases x with
      | Update u =>
        refine ⟨u, rfl, ?_⟩
        by_cases hu : u.id = i
        · exact hu
        · simp [tokOf, hu] at hx
      | Remove j =>
        by_cases hj : j = i <;> simp [tokOf, hj] at hx
      | GlobalProperty gp => simp [tokOf] at hx
      | Event e => simp [tokOf] at hx
      | Frame ts => simp [tokOf] at hx
    obtain ⟨u, rfl, hui⟩ := hxu
    refine ⟨a1, u, a2, hasplit, hui, ?_⟩
    intro hmem
    have hr : Tok.R ∈ a2.filterMap (tokOf i) :=
      List.mem_filterMap.mpr ⟨Record.Remove i, hmem, by simp [tokOf]⟩
    rw [hnil] at hr
    cases hr

/-- Witness for `remove_validity`: in a concrete run, the emitted removal of
entity 7 is preceded by its update. -/
theorem remove_validity_witness :
    ∃ a1 u a2,
      [Record.Update ⟨7, [Property.other 3 "Name=foo"]⟩] =
        a1 ++ Record.Update u :: a2 ∧ u.id = 7 ∧ Record.Remove 7 ∉ a2 :=
  (remove_validity LL.dfl LL.dfl).2
    [Record.Update ⟨7, [Property.other 3 "Name=foo"]⟩, Record.Remove 7] 7
    [Record.Update ⟨7, [Property.other 3 "Name=foo"]⟩] [] (by decide)
